import Mathlib

/-!
# myday-rename-app: a shallow embedding of `src/index.js` and `src/cli.js`

JavaScript strings are modelled as `List Char`.  The case conversions of the
engine (`toLowerCase`, `toUpperCase`) are a parameter, `CaseMapping`, of which
only the behaviour on ASCII text is used.  The Node builtins the program calls
(`path.normalize`, `path.join`, `String.prototype.split`,
`String.prototype.replace`, `RegExp`) are modelled for POSIX paths and for the
fragment of regular expressions the program can build.  Console output is not
part of the model.
-/

set_option maxRecDepth 20000

namespace MydayRenameApp

/-! ## String builtins -/

/-- The backslash character. -/
def backslash : Char := Char.ofNat 92

/-- The backtick character. -/
def backtick : Char := Char.ofNat 96

/-- The apostrophe character. -/
def apostrophe : Char := Char.ofNat 39

/-- The case mappings of the JavaScript engine, `String.prototype.toLowerCase` and
`String.prototype.toUpperCase`. They follow the Unicode tables of the engine, which are not
part of this model: the mappings are a parameter of everything that calls them, and all that
is used of them is what they do to ASCII text, where they are the ASCII mappings. -/
structure CaseMapping where
  toLowerCase : List Char → List Char
  toUpperCase : List Char → List Char
  lower_ascii : ∀ s : List Char,
    (∀ c ∈ s, c.toNat < 128) → toLowerCase s = s.map Char.toLower
  upper_ascii : ∀ s : List Char,
    (∀ c ∈ s, c.toNat < 128) → toUpperCase s = s.map Char.toUpper

/-- The Kelvin sign, U+212A, whose lower-case form is the letter `k`. -/
def kelvinSign : Char := Char.ofNat 8490

/-- The letter E with acute, U+00C9. -/
def capitalEAcute : Char := Char.ofNat 201

/-- The letter e with acute, U+00E9. -/
def smallEAcute : Char := Char.ofNat 233

/-- The sharp s, U+00DF, whose upper-case form is `SS`. -/
def sharpS : Char := Char.ofNat 223

/-- Lower case of one character in `sampleCase`. -/
def sampleLower (c : Char) : Char :=
  if c = kelvinSign then 'k' else if c = capitalEAcute then smallEAcute else c.toLower

/-- Upper case of one character in `sampleCase`. -/
def sampleUpper (c : Char) : List Char :=
  if c = sharpS then ['S', 'S'] else if c = smallEAcute then [capitalEAcute] else [c.toUpper]

/-- A case mapping for the examples: the engine's mapping on ASCII, on the Kelvin sign, on
the letter e with acute and on the sharp s; other characters are left as they are. -/
def sampleCase : CaseMapping where
  toLowerCase := fun s => s.map sampleLower
  toUpperCase := fun s => (s.map sampleUpper).flatten
  lower_ascii := by
    intro s hs
    apply List.map_congr_left
    intro c hc
    have hlt := hs c hc
    have h1 : c ≠ kelvinSign := by
      intro h
      rw [h] at hlt
      exact absurd hlt (by decide)
    have h2 : c ≠ capitalEAcute := by
      intro h
      rw [h] at hlt
      exact absurd hlt (by decide)
    simp [sampleLower, h1, h2]
  upper_ascii := by
    intro s
    induction s with
    | nil => intro _; rfl
    | cons c s ih =>
      intro hs
      have hlt := hs c (List.mem_cons_self _ _)
      have h1 : c ≠ sharpS := by
        intro h
        rw [h] at hlt
        exact absurd hlt (by decide)
      have h2 : c ≠ smallEAcute := by
        intro h
        rw [h] at hlt
        exact absurd hlt (by decide)
      have := ih (fun x hx => hs x (List.mem_cons_of_mem _ hx))
      simp only [List.map_cons, List.flatten_cons, this, sampleUpper, h1, h2, if_false]
      rfl

/-- Worker of `split`: `cur` is the segment being read, in reverse. -/
def splitAux (sep : Char) : List Char → List Char → List (List Char)
  | cur, [] => [cur.reverse]
  | cur, c :: s => if c = sep then cur.reverse :: splitAux sep [] s else splitAux sep (c :: cur) s

/-- `String.prototype.split` with a one-character separator: always at least one segment. -/
def split (sep : Char) (s : List Char) : List (List Char) := splitAux sep [] s

/-- `Array.prototype.join` with a one-character separator. -/
def joinWith (sep : Char) : List (List Char) → List Char
  | [] => []
  | [x] => x
  | x :: y :: rest => x ++ sep :: joinWith sep (y :: rest)

/-- `GetSubstitution` of ECMAScript for a match without capture groups: `$$` is a dollar,
`$&` the matched text, dollar-backtick the text before the match, dollar-apostrophe the text
after it; any other character (a lone `$` and `$1` included) stands for itself. -/
def getSubstitution (matched pre post : List Char) : List Char → List Char
  | [] => []
  | [c] => [c]
  | c :: d :: rest =>
    if c = '$' then
      if d = '$' then '$' :: getSubstitution matched pre post rest
      else if d = '&' then matched ++ getSubstitution matched pre post rest
      else if d = backtick then pre ++ getSubstitution matched pre post rest
      else if d = apostrophe then post ++ getSubstitution matched pre post rest
      else c :: getSubstitution matched pre post (d :: rest)
    else c :: getSubstitution matched pre post (d :: rest)

/-- `String.prototype.replace` with a string pattern: only the first occurrence of `search`
is replaced. `pre` is the text already passed. -/
def replaceStringFrom (search replacement : List Char) : List Char → List Char → List Char
  | pre, [] =>
    if search.isPrefixOf [] then getSubstitution search pre [] replacement else []
  | pre, c :: s =>
    if search.isPrefixOf (c :: s) then
      getSubstitution search pre ((c :: s).drop search.length) replacement
        ++ (c :: s).drop search.length
    else c :: replaceStringFrom search replacement (pre ++ [c]) s

/-- `text.replace(search, replacement)` for a string `search`. -/
def replaceString (text search replacement : List Char) : List Char :=
  replaceStringFrom search replacement [] text

/-! ## Regular expressions (the fragment the program builds) -/

/-- One position of a pattern: a literal character or the wildcard `.`. -/
inductive Atom where
  | lit (c : Char)
  | any
  deriving DecidableEq, Repr

/-- `SyntaxCharacter` of the ECMAScript pattern grammar. -/
def isSyntaxCharacter (c : Char) : Bool :=
  c = '^' || c = '$' || c = backslash || c = '.' || c = '*' || c = '+' || c = '?' ||
  c = '(' || c = ')' || c = '[' || c = ']' || c = '{' || c = '}' || c = '|'

/-- Line terminators, which the wildcard `.` does not match. -/
def isLineTerminator (c : Char) : Bool :=
  c = Char.ofNat 10 || c = Char.ofNat 13 || c = Char.ofNat 8232 || c = Char.ofNat 8233

/-- Parse a pattern source. Supported: ordinary characters, the wildcard `.`, and a
backslash followed by a syntax character (an identity escape). Any other source is
outside the fragment and gives `none`. -/
def compile : List Char → Option (List Atom)
  | [] => some []
  | [c] =>
    if c = backslash then none
    else if c = '.' then some [Atom.any]
    else if isSyntaxCharacter c then none
    else some [Atom.lit c]
  | c :: d :: rest =>
    if c = backslash then
      (if isSyntaxCharacter d then (compile rest).map (Atom.lit d :: ·) else none)
    else if c = '.' then (compile (d :: rest)).map (Atom.any :: ·)
    else if isSyntaxCharacter c then none
    else (compile (d :: rest)).map (Atom.lit c :: ·)

/-- A `RegExp` object created with the `g` flag: its source and the parsed pattern. -/
structure RegExp where
  source : List Char
  atoms : List Atom
  deriving DecidableEq, Repr

/-- `new RegExp(source, 'g')`. -/
def RegExp.new (source : List Char) : Option RegExp :=
  (compile source).map (fun atoms => { source := source, atoms := atoms })

/-- Does the atom accept the character? -/
def Atom.accepts : Atom → Char → Bool
  | Atom.lit c, d => c = d
  | Atom.any, d => !isLineTerminator d

/-- Match the pattern at the start of the text: the matched text and what follows it. -/
def matchHere : List Atom → List Char → Option (List Char × List Char)
  | [], s => some ([], s)
  | _ :: _, [] => none
  | a :: as, c :: s =>
    if a.accepts c then (matchHere as s).map (fun r => (c :: r.1, r.2)) else none

/-- Worker of the global replace. `pre` is the text already passed and `skip` the number of
characters still covered by the last match. Matches are taken leftmost first and do not
overlap; after an empty match the scan advances by one character. -/
def replaceFrom (atoms : List Atom) (replacement : List Char) :
    List Char → Nat → List Char → List Char
  | pre, _, [] =>
    match matchHere atoms [] with
    | some (m, post) => getSubstitution m pre post replacement
    | none => []
  | pre, 0, c :: s =>
    match matchHere atoms (c :: s) with
    | none => c :: replaceFrom atoms replacement (pre ++ [c]) 0 s
    | some (m, post) =>
      getSubstitution m pre post replacement ++
        (match m.length with
         | 0 => c :: replaceFrom atoms replacement (pre ++ [c]) 0 s
         | n + 1 => replaceFrom atoms replacement (pre ++ [c]) n s)
  | pre, k + 1, c :: s => replaceFrom atoms replacement (pre ++ [c]) k s

/-- `text.replace(regex, replacement)` for a regex with the `g` flag. -/
def replace (text : List Char) (regex : RegExp) (replacement : List Char) : List Char :=
  replaceFrom regex.atoms replacement [] 0 text

/-! ## Path builtins (POSIX) -/

/-- Resolve `.` and `..` segments and drop empty ones; `acc` is the result so far, in reverse. -/
def normalizeSegments (allowAboveRoot : Bool) : List (List Char) → List (List Char) → List (List Char)
  | acc, [] => acc.reverse
  | acc, seg :: rest =>
    if seg = [] ∨ seg = ['.'] then normalizeSegments allowAboveRoot acc rest
    else if seg = ['.', '.'] then
      match acc with
      | [] =>
        if allowAboveRoot then normalizeSegments allowAboveRoot [seg] rest
        else normalizeSegments allowAboveRoot [] rest
      | last :: acc2 =>
        if last = ['.', '.'] then
          (if allowAboveRoot then normalizeSegments allowAboveRoot (seg :: acc) rest
           else normalizeSegments allowAboveRoot acc rest)
        else normalizeSegments allowAboveRoot acc2 rest
    else normalizeSegments allowAboveRoot (seg :: acc) rest

/-- `path.normalize` of Node for POSIX paths. -/
def normalize (path : List Char) : List Char :=
  if path = [] then ['.']
  else
    let isAbsolute := path.head? = some '/'
    let trailingSeparator := path.getLast? = some '/'
    let res := joinWith '/' (normalizeSegments (!decide isAbsolute) [] (split '/' path))
    if res = [] then
      (if isAbsolute then ['/'] else if trailingSeparator then ['.', '/'] else ['.'])
    else
      let res2 := if trailingSeparator then res ++ ['/'] else res
      if isAbsolute then '/' :: res2 else res2

/-- `path.join` of Node with two arguments. -/
def join (a b : List Char) : List Char :=
  if a = [] then (if b = [] then ['.'] else normalize b)
  else if b = [] then normalize a
  else normalize (a ++ '/' :: b)

/-! ## `src/index.js`: identifiers and the job -/

/-- One part of an app ID: `[a-z][a-z0-9]+`. -/
def isIdPart : List Char → Bool
  | c :: d :: rest => c.isLower && (d :: rest).all (fun x => x.isLower || x.isDigit)
  | _ => false

/-- `s.match(APP_ID_REGEX)` for `/^([a-z][a-z0-9]+)\.([a-z][a-z0-9]+)$/`: the two captured
groups, or `none`. Neither group can hold a dot, so the split is at the first dot. -/
def matchAppId (s : List Char) : Option (List Char × List Char) :=
  match s.dropWhile (fun c => c ≠ '.') with
  | [] => none
  | _ :: appName =>
    let tenantAlias := s.takeWhile (fun c => c ≠ '.')
    if isIdPart tenantAlias && isIdPart appName then some (tenantAlias, appName) else none

/-- The options object handed to the constructor. -/
structure Options where
  path : List Char
  appId : List Char
  verbose : Bool
  silent : Bool
  dryRun : Bool
  deriving DecidableEq, Repr

/-- What a run can fail with. -/
inductive RenameError where
  /-- `Path does not end with a valid app ID: ...` -/
  | invalidPath (oldFull : List Char)
  /-- `New app ID is not valid ...` -/
  | invalidAppId (newFull : List Char)
  /-- `new RegExp` rejected a pattern source. -/
  | regExp (source : List Char)
  /-- A rejected file-system call, with the code the file system gave. -/
  | io (code : Nat)
  deriving DecidableEq, Repr

/-- The fields of a `MydayRenameApp` instance. -/
structure Job where
  oldDir : List Char
  oldFull : List Char
  oldTenantAlias : List Char
  oldAppName : List Char
  newFull : List Char
  newTenantAlias : List Char
  newAppName : List Char
  newDir : List Char
  verbose : Bool
  silent : Bool
  dryRun : Bool
  deriving DecidableEq, Repr

/-- The constructor of `MydayRenameApp` (index.js 22-58). -/
def constructor (cm : CaseMapping) (o : Options) : Except RenameError Job :=
  let oldDir := normalize o.path
  let parts := split '/' oldDir
  let oldFull := parts.getLastD []
  match matchAppId oldFull with
  | none => Except.error (RenameError.invalidPath oldFull)
  | some (oldTenantAlias, oldAppName) =>
    let newFull := cm.toLowerCase o.appId
    match matchAppId newFull with
    | none => Except.error (RenameError.invalidAppId newFull)
    | some (newTenantAlias, newAppName) =>
      Except.ok {
        oldDir := oldDir
        oldFull := oldFull
        oldTenantAlias := oldTenantAlias
        oldAppName := oldAppName
        newFull := newFull
        newTenantAlias := newTenantAlias
        newAppName := newAppName
        newDir := replaceString oldDir oldFull newFull
        verbose := o.verbose
        silent := o.silent
        dryRun := o.dryRun }

/-- `title` (index.js 82-84): `input.charAt(0).toUpperCase() + input.slice(1)`. -/
def title (cm : CaseMapping) (input : List Char) : List Char :=
  cm.toUpperCase (input.take 1) ++ input.drop 1

/-- A search pattern and the replacement for its matches. -/
structure Pattern where
  regex : RegExp
  replacement : List Char
  deriving DecidableEq, Repr

/-- One entry of the list `generatePatterns` returns. -/
def mkPattern (source replacement : List Char) : Except RenameError Pattern :=
  match RegExp.new source with
  | none => Except.error (RenameError.regExp source)
  | some regex => Except.ok { regex := regex, replacement := replacement }

/-- `generatePatterns` (index.js 96-121). -/
def generatePatterns (cm : CaseMapping) (job : Job) : Except RenameError (List Pattern) :=
  let oldWithDot := job.oldTenantAlias ++ [backslash, '.'] ++ job.oldAppName
  let newWithDot := job.newTenantAlias ++ ['.'] ++ job.newAppName
  let oldWithDash := job.oldTenantAlias ++ ['-'] ++ job.oldAppName
  let newWithDash := job.newTenantAlias ++ ['-'] ++ job.newAppName
  let oldCapitalizedTenantAlias := title cm job.oldTenantAlias
  let oldCapitalizedAppName := title cm job.oldAppName
  let newCapitalizedTenantAlias := title cm job.newTenantAlias
  let newCapitalizedAppName := title cm job.newAppName
  let oldTitleCase := oldCapitalizedTenantAlias ++ oldCapitalizedAppName
  let newTitleCase := newCapitalizedTenantAlias ++ newCapitalizedAppName
  let oldCamelCase := job.oldTenantAlias ++ oldCapitalizedAppName
  let newCamelCase := job.newTenantAlias ++ newCapitalizedAppName
  match mkPattern oldWithDot newWithDot with
  | Except.error e => Except.error e
  | Except.ok p1 =>
    match mkPattern oldWithDash newWithDash with
    | Except.error e => Except.error e
    | Except.ok p2 =>
      match mkPattern oldTitleCase newTitleCase with
      | Except.error e => Except.error e
      | Except.ok p3 =>
        match mkPattern oldCamelCase newCamelCase with
        | Except.error e => Except.error e
        | Except.ok p4 => Except.ok [p1, p2, p3, p4]

/-- Every pattern in turn on one string, as the loop of `rewrite` does to the content. -/
def applyPatterns : List Pattern → List Char → List Char
  | [], text => text
  | p :: rest, text => applyPatterns rest (replace text p.regex p.replacement)

/-- The loop of `rewrite` (index.js 144-152): each pattern is applied to the content and to
the path before the next one is taken. -/
def rewriteLoop : List Pattern → List Char × List Char → List Char × List Char
  | [], acc => acc
  | p :: rest, (content, newPath) =>
    rewriteLoop rest (replace content p.regex p.replacement, replace newPath p.regex p.replacement)

/-! ## The file system and the run -/

/-- The calls the program makes to the file system. -/
inductive Op where
  | access (path : List Char)
  | glob (pattern cwd : List Char)
  | readFile (path : List Char)
  | writeFile (path content : List Char)
  | rename (oldPath newPath : List Char)
  deriving DecidableEq, Repr

/-- Is the call one that changes the file system? -/
def Op.isMutation : Op → Bool
  | Op.writeFile _ _ => true
  | Op.rename _ _ => true
  | _ => false

/-- A file system with states `σ`. `access`, `glob` and `readFile` only observe the state;
`writeFile` and `rename` give the next state, also when they are rejected. A rejected call
gives an error code. -/
structure FileSystem (σ : Type) where
  access : List Char → σ → Except Nat Unit
  glob : List Char → List Char → σ → Except Nat (List (List Char))
  readFile : List Char → σ → Except Nat (List Char)
  writeFile : List Char → List Char → σ → Except Nat Unit × σ
  rename : List Char → List Char → σ → Except Nat Unit × σ

/-- How a run ends: its result, the file-system state it leaves, and the calls it made,
in program order. -/
structure Outcome (σ : Type) where
  result : Except RenameError Unit
  state : σ
  ops : List Op

/-- The result of a file-system call as a result of the run. -/
def liftIO : Except Nat Unit → Except RenameError Unit
  | Except.ok u => Except.ok u
  | Except.error code => Except.error (RenameError.io code)

/-- The manifest file name. -/
def manifestName : List Char := "app.json".toList

/-- The glob pattern of `start`. -/
def globPattern : List Char := "**/*.\x7bjson,html,css,js,ts\x7d".toList

/-- `rewrite` (index.js 130-163). -/
def rewrite {σ : Type} (fs : FileSystem σ) (job : Job) (path : List Char)
    (patterns : List Pattern) (st : σ) : Outcome σ :=
  let fullPath := normalize (join job.oldDir path)
  match fs.readFile fullPath st with
  | Except.error code =>
    { result := Except.error (RenameError.io code), state := st, ops := [Op.readFile fullPath] }
  | Except.ok content0 =>
    let (content, newPath) := rewriteLoop patterns (content0, path)
    if !job.dryRun then
      match fs.writeFile fullPath content st with
      | (Except.error code, st1) =>
        { result := Except.error (RenameError.io code), state := st1,
          ops := [Op.readFile fullPath, Op.writeFile fullPath content] }
      | (Except.ok _, st1) =>
        if !job.dryRun && path ≠ newPath then
          let target := normalize (join job.oldDir newPath)
          let (r, st2) := fs.rename fullPath target st1
          { result := liftIO r, state := st2,
            ops := [Op.readFile fullPath, Op.writeFile fullPath content,
                    Op.rename fullPath target] }
        else
          { result := Except.ok (), state := st1,
            ops := [Op.readFile fullPath, Op.writeFile fullPath content] }
    else
      if !job.dryRun && path ≠ newPath then
        let target := normalize (join job.oldDir newPath)
        let (r, st2) := fs.rename fullPath target st
        { result := liftIO r, state := st2,
          ops := [Op.readFile fullPath, Op.rename fullPath target] }
      else
        { result := Except.ok (), state := st, ops := [Op.readFile fullPath] }

/-- The loop of `start` over the listing (index.js 197-200): one file after the other,
stopping at the first failure. -/
def rewriteAll {σ : Type} (fs : FileSystem σ) (job : Job) (patterns : List Pattern) :
    List (List Char) → σ → Outcome σ
  | [], st => { result := Except.ok (), state := st, ops := [] }
  | path :: rest, st =>
    let o := rewrite fs job path patterns st
    match o.result with
    | Except.error e => { result := Except.error e, state := o.state, ops := o.ops }
    | Except.ok _ =>
      let o2 := rewriteAll fs job patterns rest o.state
      { result := o2.result, state := o2.state, ops := o.ops ++ o2.ops }

/-- `start` (index.js 168-211). -/
def start {σ : Type} (cm : CaseMapping) (fs : FileSystem σ) (job : Job) (st : σ) :
    Outcome σ :=
  let manifest := normalize (join job.oldDir manifestName)
  match fs.access manifest st with
  | Except.error code =>
    { result := Except.error (RenameError.io code), state := st, ops := [Op.access manifest] }
  | Except.ok _ =>
    match generatePatterns cm job with
    | Except.error e => { result := Except.error e, state := st, ops := [Op.access manifest] }
    | Except.ok patterns =>
      match fs.glob globPattern job.oldDir st with
      | Except.error code =>
        { result := Except.error (RenameError.io code), state := st,
          ops := [Op.access manifest, Op.glob globPattern job.oldDir] }
      | Except.ok paths =>
        let o := rewriteAll fs job patterns paths st
        match o.result with
        | Except.error e =>
          { result := Except.error e, state := o.state,
            ops := [Op.access manifest, Op.glob globPattern job.oldDir] ++ o.ops }
        | Except.ok _ =>
          if job.dryRun then
            { result := Except.ok (), state := o.state,
              ops := [Op.access manifest, Op.glob globPattern job.oldDir] ++ o.ops }
          else
            let (r, st2) := fs.rename job.oldDir job.newDir o.state
            { result := liftIO r, state := st2,
              ops := [Op.access manifest, Op.glob globPattern job.oldDir] ++ o.ops
                ++ [Op.rename job.oldDir job.newDir] }

/-- The last line of `src/cli.js`: `new MydayDeployApp(argv).start()`. -/
def cli {σ : Type} (cm : CaseMapping) (fs : FileSystem σ) (argv : Options) (st : σ) :
    Outcome σ :=
  match constructor cm argv with
  | Except.error e => { result := Except.error e, state := st, ops := [] }
  | Except.ok job => start cm fs job st

/-! ## Vocabulary of the statements -/

/-- A character of `[a-z0-9]`. -/
def isPartChar (c : Char) : Bool := c.isLower || c.isDigit

/-- A character of `[A-Za-z0-9.-]`; the other characters are the separators. -/
def isWordChar (c : Char) : Bool := c.isAlphanum || c = '.' || c = '-'

/-- The dotted rendering `t.a`. -/
def dotted (tenantAlias appName : List Char) : List Char := tenantAlias ++ ['.'] ++ appName

/-- The dashed rendering `t-a`. -/
def dashed (tenantAlias appName : List Char) : List Char := tenantAlias ++ ['-'] ++ appName

/-- The TitleCase rendering `TA`. -/
def titleCase (cm : CaseMapping) (tenantAlias appName : List Char) : List Char :=
  title cm tenantAlias ++ title cm appName

/-- The camelCase rendering `tA`. -/
def camelCase (cm : CaseMapping) (tenantAlias appName : List Char) : List Char :=
  tenantAlias ++ title cm appName

/-- The four renderings of the old identifier, in the order of the patterns. -/
def oldRenderings (cm : CaseMapping) (job : Job) : List (List Char) :=
  [dotted job.oldTenantAlias job.oldAppName, dashed job.oldTenantAlias job.oldAppName,
   titleCase cm job.oldTenantAlias job.oldAppName, camelCase cm job.oldTenantAlias job.oldAppName]

/-- The four renderings of the new identifier, in the order of the patterns. -/
def newRenderings (cm : CaseMapping) (job : Job) : List (List Char) :=
  [dotted job.newTenantAlias job.newAppName, dashed job.newTenantAlias job.newAppName,
   titleCase cm job.newTenantAlias job.newAppName, camelCase cm job.newTenantAlias job.newAppName]

/-- The pattern that matches the text `old` literally, written with the source `source`. -/
def literalPattern (source old new : List Char) : Pattern :=
  { regex := { source := source, atoms := old.map Atom.lit }, replacement := new }

/-- The text `u0 + r + u1 + r + ... + r + un` for `us = [u1, ..., un]`. -/
def interleave (r u0 : List Char) (us : List (List Char)) : List Char :=
  u0 ++ (us.map (fun u => r ++ u)).flatten

/-- The text `u0 + r1 + u1 + ... + rn + un` for `blocks = [(r1, u1), ..., (rn, un)]`. -/
def assemble (u0 : List Char) (blocks : List (List Char × List Char)) : List Char :=
  u0 ++ (blocks.map (fun b => b.1 ++ b.2)).flatten

/-- The four identifier parts of a job are valid parts. -/
def Job.Valid (job : Job) : Prop :=
  isIdPart job.oldTenantAlias = true ∧ isIdPart job.oldAppName = true ∧
  isIdPart job.newTenantAlias = true ∧ isIdPart job.newAppName = true

/-- What the proofs use about a character of `[a-z0-9]`. -/
def PartCharFacts (c : Char) : Prop :=
  isSyntaxCharacter c = false ∧ c ≠ '$' ∧ c ≠ '.' ∧ c ≠ '-' ∧ c.isUpper = false ∧
  isWordChar c = true ∧ c.toLower = c

/-- What the proofs use about the upper-case form of a letter. -/
def UpperCharFacts (c : Char) : Prop :=
  isSyntaxCharacter c.toUpper = false ∧ c.toUpper ≠ '$' ∧ c.toUpper ≠ '.' ∧ c.toUpper ≠ '-' ∧
  c.toUpper.isUpper = true ∧ isWordChar c.toUpper = true ∧ isPartChar c.toUpper = false ∧
  c.toUpper.toLower = c

/-- No character of the string is special in a pattern or in a replacement, and all are
characters of `[A-Za-z0-9.-]` other than the dot and the dash. -/
def Plain (s : List Char) : Prop :=
  ∀ x ∈ s, isSyntaxCharacter x = false ∧ x ≠ '$' ∧ x ≠ '.' ∧ x ≠ '-' ∧ isWordChar x = true

/-- What the proofs use about a rendering: it is not empty, its characters are of
`[A-Za-z0-9.-]`, none is a dollar, and it holds so many dots, dashes and capitals. -/
structure Rendering (r : List Char) (dots dashes uppers : Nat) : Prop where
  ne_nil : r ≠ []
  word : ∀ x ∈ r, isWordChar x = true
  no_dollar : '$' ∉ r
  dots_eq : r.countP (fun c => decide (c = '.')) = dots
  dashes_eq : r.countP (fun c => decide (c = '-')) = dashes
  uppers_eq : r.countP Char.isUpper = uppers

/-- The list `generatePatterns` returns for a job with valid parts. -/
def expectedPatterns (cm : CaseMapping) (job : Job) : List Pattern :=
  [literalPattern (job.oldTenantAlias ++ [backslash, '.'] ++ job.oldAppName)
      (dotted job.oldTenantAlias job.oldAppName) (dotted job.newTenantAlias job.newAppName),
   literalPattern (dashed job.oldTenantAlias job.oldAppName)
      (dashed job.oldTenantAlias job.oldAppName) (dashed job.newTenantAlias job.newAppName),
   literalPattern (titleCase cm job.oldTenantAlias job.oldAppName)
      (titleCase cm job.oldTenantAlias job.oldAppName)
      (titleCase cm job.newTenantAlias job.newAppName),
   literalPattern (camelCase cm job.oldTenantAlias job.oldAppName)
      (camelCase cm job.oldTenantAlias job.oldAppName)
      (camelCase cm job.newTenantAlias job.newAppName)]

/-- Options of scenario 1 of the specification: `acme.widget` becomes `corp.gadget`. -/
def scenarioOptions : Options :=
  { path := "/apps/acme.widget".toList, appId := "corp.gadget".toList,
    verbose := false, silent := false, dryRun := false }

/-- The job the constructor builds from `scenarioOptions`. -/
def scenarioJob : Job :=
  { oldDir := "/apps/acme.widget".toList, oldFull := "acme.widget".toList,
    oldTenantAlias := "acme".toList, oldAppName := "widget".toList,
    newFull := "corp.gadget".toList, newTenantAlias := "corp".toList,
    newAppName := "gadget".toList, newDir := "/apps/corp.gadget".toList,
    verbose := false, silent := false, dryRun := false }

/-- The file content of scenario 1. -/
def scenarioContent : List Char :=
  "angular.module('AcmeWidgetCtrl', [])... acme.widget ... acme-widget ... acmeWidget".toList

/-- The file content scenario 1 expects after the run. -/
def scenarioExpected : List Char :=
  "angular.module('CorpGadgetCtrl', [])... corp.gadget ... corp-gadget ... corpGadget".toList

/-- Options whose new identifier `xab.cde` holds the old identifier `ab.cd`. -/
def overlapOptions : Options :=
  { path := "/apps/ab.cd".toList, appId := "xab.cde".toList,
    verbose := false, silent := false, dryRun := false }

/-- The job the constructor builds from `overlapOptions`. -/
def overlapJob : Job :=
  { oldDir := "/apps/ab.cd".toList, oldFull := "ab.cd".toList,
    oldTenantAlias := "ab".toList, oldAppName := "cd".toList,
    newFull := "xab.cde".toList, newTenantAlias := "xab".toList,
    newAppName := "cde".toList, newDir := "/apps/xab.cde".toList,
    verbose := false, silent := false, dryRun := false }

/-- The string matches `/^([a-z][a-z0-9]+)\.([a-z][a-z0-9]+)$/`: two parts of the form
`[a-z][a-z0-9]+` with one dot between them. -/
def IsAppId (s : List Char) : Prop :=
  ∃ a b, s = a ++ '.' :: b ∧ isIdPart a = true ∧ isIdPart b = true

/-- The last `/`-separated segment of the normalized path. -/
def lastSegment (path : List Char) : List Char := (split '/' (normalize path)).getLastD []

/-- Options with an upper-case old identifier (scenario 5 of the specification). -/
def upperCaseOptions : Options :=
  { path := "/apps/Acme.Widget".toList, appId := "corp.gadget".toList,
    verbose := false, silent := false, dryRun := false }

/-- Options with the new identifier in upper case (scenario 4 of the specification). -/
def shoutedOptions : Options :=
  { path := "/apps/acme.widget".toList, appId := "CORP.GADGET".toList,
    verbose := false, silent := false, dryRun := false }

/-- Options whose path holds the old identifier twice. -/
def backupOptions : Options :=
  { path := "/work/acme.widget-backup/acme.widget".toList, appId := "corp.gadget".toList,
    verbose := false, silent := false, dryRun := false }

/-- Was the file-system call accepted? -/
def accepted : Except Nat Unit → Bool
  | Except.ok _ => true
  | Except.error _ => false

/-! ## An in-memory file system for the examples -/

/-- Files as pairs of an absolute path and a content. -/
abbrev Files := List (List Char × List Char)

/-- Does the path end in one of the extensions of `globPattern`? -/
def hasListedExtension (path : List Char) : Bool :=
  [".json", ".html", ".css", ".js", ".ts"].any (fun ext => ext.toList.isSuffixOf path)

/-- Give the files below `oldPath/` the prefix `newPath/`. -/
def moveDirectory (oldPath newPath : List Char) (files : Files) : Files :=
  files.map (fun f =>
    if (oldPath ++ ['/']).isPrefixOf f.1 then (newPath ++ f.1.drop oldPath.length, f.2) else f)

/-- An in-memory file system: `access` and `readFile` reject a missing file with code 2,
`glob` lists the files with a listed extension below `cwd`, `writeFile` replaces or adds a
file, `rename` renames a file or, if no file has that path, moves a directory. -/
def memFS : FileSystem Files where
  access := fun path files =>
    if files.any (fun f => f.1 = path) then Except.ok () else Except.error 2
  glob := fun _ cwd files =>
    Except.ok ((files.filter (fun f =>
      (cwd ++ ['/']).isPrefixOf f.1 && hasListedExtension f.1)).map
        (fun f => f.1.drop (cwd.length + 1)))
  readFile := fun path files =>
    match files.find? (fun f => f.1 = path) with
    | some f => Except.ok f.2
    | none => Except.error 2
  writeFile := fun path content files =>
    (Except.ok (), (path, content) :: files.filter (fun f => f.1 ≠ path))
  rename := fun oldPath newPath files =>
    if files.any (fun f => f.1 = oldPath) then
      (Except.ok (), files.map (fun f => if f.1 = oldPath then (newPath, f.2) else f))
    else if files.any (fun f => (oldPath ++ ['/']).isPrefixOf f.1) then
      (Except.ok (), moveDirectory oldPath newPath files)
    else (Except.error 2, files)

/-- The source tree of scenario 1, with a controller file whose name holds the old
identifier; the files stand in the order in which the glob lists them. -/
def scenarioFiles : Files :=
  [("/apps/acme.widget/AcmeWidgetCtrl.js".toList, scenarioContent),
   ("/apps/acme.widget/app.json".toList, "acme.widget".toList)]

/-- The job of scenario 2: scenario 1 as a dry run. -/
def dryRunJob : Job := { scenarioJob with dryRun := true }

/-- Options whose old identifier `ab.cda` runs over the end of the new identifier `ab.cd`. -/
def adjacentOptions : Options :=
  { path := "/apps/ab.cda".toList, appId := "ab.cd".toList,
    verbose := false, silent := false, dryRun := false }

/-- The job the constructor builds from `adjacentOptions`. -/
def adjacentJob : Job :=
  { oldDir := "/apps/ab.cda".toList, oldFull := "ab.cda".toList,
    oldTenantAlias := "ab".toList, oldAppName := "cda".toList,
    newFull := "ab.cd".toList, newTenantAlias := "ab".toList,
    newAppName := "cd".toList, newDir := "/apps/ab.cd".toList,
    verbose := false, silent := false, dryRun := false }

/-- Every character of the text is a separator, that is, outside `[A-Za-z0-9.-]`. -/
def IsSeparators (u : List Char) : Prop := ∀ x ∈ u, isWordChar x = false

/-- The in-memory file system with one file that cannot be written: `writeFile` on the path
`locked` is rejected with code 13 and changes nothing. -/
def lockedFS (locked : List Char) : FileSystem Files :=
  { memFS with
    writeFile := fun path content files =>
      if path = locked then (Except.error 13, files) else memFS.writeFile path content files }

/-- The source tree of scenario 3: the controller file, and no `app.json`. -/
def noManifestFiles : Files :=
  [("/apps/acme.widget/AcmeWidgetCtrl.js".toList, scenarioContent)]

/-- Is the call a `rename`? -/
def Op.isRename : Op → Bool
  | Op.rename _ _ => true
  | _ => false

/-- The full path `normalize(join(oldDir, path))` of a listed file. -/
def fullPath (job : Job) (path : List Char) : List Char := normalize (join job.oldDir path)

/-- The state after the files of `paths` are rewritten one after the other, each from the
state the one before it leaves. -/
def stateAfter {σ : Type} (fs : FileSystem σ) (job : Job) (patterns : List Pattern) :
    List (List Char) → σ → σ
  | [], st => st
  | p :: rest, st => stateAfter fs job patterns rest (rewrite fs job p patterns st).state

/-- The calls of these rewrites, file after file. -/
def opsOf {σ : Type} (fs : FileSystem σ) (job : Job) (patterns : List Pattern) :
    List (List Char) → σ → List Op
  | [], _ => []
  | p :: rest, st =>
    (rewrite fs job p patterns st).ops
      ++ opsOf fs job patterns rest (rewrite fs job p patterns st).state

/-- Each of these rewrites succeeds. -/
def allSucceed {σ : Type} (fs : FileSystem σ) (job : Job) (patterns : List Pattern) :
    List (List Char) → σ → Prop
  | [], _ => True
  | p :: rest, st =>
    (rewrite fs job p patterns st).result = Except.ok () ∧
      allSucceed fs job patterns rest (rewrite fs job p patterns st).state

/-- Options whose new identifier starts with the Kelvin sign: `K` + `orp.gadget`. -/
def kelvinOptions : Options :=
  { path := "/apps/acme.widget".toList, appId := kelvinSign :: "orp.gadget".toList,
    verbose := false, silent := false, dryRun := false }

/-- Options whose path ends in a slash. -/
def trailingSlashOptions : Options :=
  { path := "/apps/acme.widget/".toList, appId := "corp.gadget".toList,
    verbose := false, silent := false, dryRun := false }

variable {cm : CaseMapping}

/-! ## Characters -/

theorem lower_range (c : Char) (hc : c.isLower = true) : 97 ≤ c.toNat ∧ c.toNat ≤ 122 := by
  simp only [Char.isLower, Bool.and_eq_true, decide_eq_true_eq] at hc
  obtain ⟨h1, h2⟩ := hc
  have h1n : (97 : UInt32).toNat ≤ c.val.toNat := h1
  have h2n : c.val.toNat ≤ (122 : UInt32).toNat := h2
  exact ⟨h1n, h2n⟩

theorem digit_range (c : Char) (hc : c.isDigit = true) : 48 ≤ c.toNat ∧ c.toNat ≤ 57 := by
  simp only [Char.isDigit, Bool.and_eq_true, decide_eq_true_eq] at hc
  obtain ⟨h1, h2⟩ := hc
  have h1n : (48 : UInt32).toNat ≤ c.val.toNat := h1
  have h2n : c.val.toNat ≤ (57 : UInt32).toNat := h2
  exact ⟨h1n, h2n⟩

/-- A property of all lower-case letters can be checked letter by letter. -/
theorem lower_cases (P : Char → Prop) (h : ∀ n, 97 ≤ n → n ≤ 122 → P (Char.ofNat n))
    (c : Char) (hc : c.isLower = true) : P c := by
  have hr := lower_range c hc
  rw [← Char.ofNat_toNat c]
  exact h _ hr.1 hr.2

/-- A property of all digits can be checked digit by digit. -/
theorem digit_cases (P : Char → Prop) (h : ∀ n, 48 ≤ n → n ≤ 57 → P (Char.ofNat n))
    (c : Char) (hc : c.isDigit = true) : P c := by
  have hr := digit_range c hc
  rw [← Char.ofNat_toNat c]
  exact h _ hr.1 hr.2

theorem partCharFacts_of_lower (c : Char) (hc : c.isLower = true) : PartCharFacts c := by
  refine lower_cases PartCharFacts ?_ c hc
  intro n h1 h2
  unfold PartCharFacts
  interval_cases n <;> decide

theorem partCharFacts_of_digit (c : Char) (hc : c.isDigit = true) : PartCharFacts c := by
  refine digit_cases PartCharFacts ?_ c hc
  intro n h1 h2
  unfold PartCharFacts
  interval_cases n <;> decide

theorem partCharFacts (c : Char) (hc : isPartChar c = true) : PartCharFacts c := by
  unfold isPartChar at hc
  rcases Bool.or_eq_true _ _ ▸ hc with h | h
  · exact partCharFacts_of_lower c h
  · exact partCharFacts_of_digit c h

theorem upperCharFacts (c : Char) (hc : c.isLower = true) : UpperCharFacts c := by
  refine lower_cases UpperCharFacts ?_ c hc
  intro n h1 h2
  unfold UpperCharFacts
  interval_cases n <;> decide

theorem partChar_ascii (c : Char) (hc : isPartChar c = true) : c.toNat < 128 := by
  unfold isPartChar at hc
  rcases Bool.or_eq_true _ _ ▸ hc with h | h
  · have := lower_range c h
    omega
  · have := digit_range c h
    omega

theorem toUpper_ascii_of_lower (c : Char) (hc : c.isLower = true) : c.toUpper.toNat < 128 := by
  refine lower_cases (fun c => c.toUpper.toNat < 128) ?_ c hc
  intro n h1 h2
  interval_cases n <;> decide

/-- Lower-casing leaves a text of `[a-z0-9.]` as it is. -/
theorem toLowerCase_fixed (cm : CaseMapping) {s : List Char}
    (h : ∀ x ∈ s, isPartChar x = true ∨ x = '.') : cm.toLowerCase s = s := by
  have hascii : ∀ c ∈ s, c.toNat < 128 := by
    intro c hc
    rcases h c hc with h1 | h1
    · exact partChar_ascii c h1
    · rw [h1]
      decide
  rw [cm.lower_ascii s hascii]
  have hid : s.map Char.toLower = s.map id := by
    apply List.map_congr_left
    intro c hc
    rcases h c hc with h1 | h1
    · exact (partCharFacts c h1).2.2.2.2.2.2
    · rw [h1]
      rfl
  rw [hid, List.map_id]

/-! ## Identifier parts -/

theorem isIdPart_shape {p : List Char} (h : isIdPart p = true) :
    ∃ c d rest, p = c :: d :: rest ∧ c.isLower = true ∧ ∀ x ∈ p, isPartChar x = true := by
  match p, h with
  | c :: d :: rest, h =>
    simp only [isIdPart, Bool.and_eq_true, List.all_eq_true] at h
    refine ⟨c, d, rest, rfl, h.1, ?_⟩
    intro x hx
    rcases List.mem_cons.1 hx with rfl | hx
    · simp [isPartChar, h.1]
    · exact h.2 x hx

theorem isIdPart_partChar {p : List Char} (h : isIdPart p = true) :
    ∀ x ∈ p, isPartChar x = true := by
  obtain ⟨_, _, _, _, _, hall⟩ := isIdPart_shape h
  exact hall

theorem isIdPart_ne_nil {p : List Char} (h : isIdPart p = true) : p ≠ [] := by
  obtain ⟨c, d, rest, rfl, _, _⟩ := isIdPart_shape h
  simp

theorem title_shape (cm : CaseMapping) {p : List Char} (h : isIdPart p = true) :
    ∃ c rest, p = c :: rest ∧ title cm p = c.toUpper :: rest ∧ c.isLower = true ∧
      ∀ x ∈ rest, isPartChar x = true := by
  obtain ⟨c, d, rest, rfl, hc, hall⟩ := isIdPart_shape h
  have hup : cm.toUpperCase [c] = [c.toUpper] := by
    have hascii : ∀ x ∈ [c], x.toNat < 128 := by
      intro x hx
      rw [List.mem_singleton] at hx
      rw [hx]
      have := lower_range c hc
      omega
    rw [cm.upper_ascii [c] hascii]
    rfl
  have ht : title cm (c :: d :: rest) = c.toUpper :: d :: rest := by
    unfold title
    simp only [List.take_succ_cons, List.take_zero, List.drop_succ_cons, List.drop_zero, hup]
    rfl
  exact ⟨c, d :: rest, rfl, ht, hc, fun x hx => hall x (List.mem_cons_of_mem _ hx)⟩

theorem title_ne_nil (cm : CaseMapping) {p : List Char}
    (h : isIdPart p = true) : title cm p ≠ [] := by
  obtain ⟨c, rest, _, ht, _, _⟩ := title_shape cm h
  simp [ht]

theorem dropWhile_head_false (p : Char → Bool) :
    ∀ (s : List Char) (c : Char) (rest : List Char), s.dropWhile p = c :: rest → p c = false := by
  intro s
  induction s with
  | nil => intro c rest h; simp at h
  | cons x xs ih =>
    intro c rest h
    by_cases hx : p x = true
    · rw [List.dropWhile_cons_of_pos hx] at h
      exact ih c rest h
    · rw [List.dropWhile_cons_of_neg hx] at h
      simp only [List.cons.injEq] at h
      rw [← h.1]
      simpa using hx

/-- A match of the identifier pattern splits the string at its dot into two valid parts. -/
theorem matchAppId_some {s a b : List Char} (h : matchAppId s = some (a, b)) :
    s = a ++ '.' :: b ∧ isIdPart a = true ∧ isIdPart b = true := by
  unfold matchAppId at h
  split at h
  · exact absurd h (by simp)
  · rename_i c appName hdrop
    simp only at h
    split at h
    · rename_i hvalid
      simp only [Option.some.injEq, Prod.mk.injEq] at h
      obtain ⟨ha, hb⟩ := h
      subst ha hb
      simp only [Bool.and_eq_true] at hvalid
      refine ⟨?_, hvalid.1, hvalid.2⟩
      have hc : c = '.' := by
        have hhead := dropWhile_head_false _ s c appName hdrop
        simpa using hhead
      have := List.takeWhile_append_dropWhile (fun c => decide (c ≠ '.')) s
      rw [hdrop, hc] at this
      exact this.symm
    · exact absurd h (by simp)

/-- Two valid parts joined by a dot match the identifier pattern, with these parts. -/
theorem matchAppId_dotted {a b : List Char} (ha : isIdPart a = true) (hb : isIdPart b = true) :
    matchAppId (a ++ '.' :: b) = some (a, b) := by
  have hnodot : ∀ x ∈ a, decide (x ≠ '.') = true := by
    intro x hx
    have := (partCharFacts x (isIdPart_partChar ha x hx)).2.2.1
    simpa using this
  have htake : List.takeWhile (fun c => decide (c ≠ '.')) (a ++ '.' :: b) = a := by
    rw [List.takeWhile_append_of_pos hnodot]
    simp
  have hdrop : List.dropWhile (fun c => decide (c ≠ '.')) (a ++ '.' :: b) = '.' :: b := by
    rw [List.dropWhile_append_of_pos hnodot]
    simp
  unfold matchAppId
  rw [hdrop]
  simp only [htake, ha, hb, Bool.and_self, if_true]

/-! ## Patterns and matching -/

theorem ordinary_ne {c : Char} (h : isSyntaxCharacter c = false) :
    c ≠ backslash ∧ c ≠ '.' := by
  constructor
  · rintro rfl; revert h; decide
  · rintro rfl; revert h; decide

theorem compile_cons_lit {c : Char} (h : isSyntaxCharacter c = false) (x : List Char) :
    compile (c :: x) = (compile x).map (Atom.lit c :: ·) := by
  obtain ⟨h1, h2⟩ := ordinary_ne h
  cases x with
  | nil => simp [compile, h1, h2, h]
  | cons d rest => simp [compile, h1, h2, h]

theorem compile_escaped_dot (x : List Char) :
    compile (backslash :: '.' :: x) = (compile x).map (Atom.lit '.' :: ·) := by
  have h : isSyntaxCharacter '.' = true := by decide
  simp [compile, h]

theorem compile_lits_append {a : List Char} (ha : ∀ c ∈ a, isSyntaxCharacter c = false)
    (t : List Char) : compile (a ++ t) = (compile t).map (a.map Atom.lit ++ ·) := by
  induction a with
  | nil => simp
  | cons c a ih =>
    rw [List.cons_append, compile_cons_lit (ha c (List.mem_cons_self _ _)),
      ih (fun x hx => ha x (List.mem_cons_of_mem _ hx))]
    simp [Option.map_map, Function.comp_def]

theorem compile_lits {a : List Char} (ha : ∀ c ∈ a, isSyntaxCharacter c = false) :
    compile a = some (a.map Atom.lit) := by
  have := compile_lits_append ha []
  simpa [compile] using this

theorem matchHere_lits_append (r s : List Char) :
    matchHere (r.map Atom.lit) (r ++ s) = some (r, s) := by
  induction r with
  | nil => simp [matchHere]
  | cons c r ih => simp [matchHere, Atom.accepts, ih]

theorem matchHere_lits_some {r s m post : List Char}
    (h : matchHere (r.map Atom.lit) s = some (m, post)) : m = r ∧ s = r ++ post := by
  induction r generalizing s m with
  | nil => simp [matchHere] at h; simp [h.1, h.2]
  | cons c r ih =>
    cases s with
    | nil => simp [matchHere] at h
    | cons d s =>
      simp only [List.map_cons, matchHere, Atom.accepts] at h
      split at h
      · rename_i hcd
        simp only [decide_eq_true_eq] at hcd
        subst hcd
        cases hm : matchHere (r.map Atom.lit) s with
        | none => simp [hm] at h
        | some res =>
          obtain ⟨m2, post2⟩ := res
          simp only [hm, Option.map_some', Option.some.injEq, Prod.mk.injEq] at h
          obtain ⟨h1, h2⟩ := h
          subst h1 h2
          obtain ⟨e1, e2⟩ := ih hm
          simp [e1, e2]
      · simp at h

theorem matchHere_lits_none {r s : List Char} (h : ¬ r <+: s) :
    matchHere (r.map Atom.lit) s = none := by
  cases hm : matchHere (r.map Atom.lit) s with
  | none => rfl
  | some res =>
    obtain ⟨m, post⟩ := res
    obtain ⟨_, e2⟩ := matchHere_lits_some hm
    exact absurd ⟨post, e2.symm⟩ h

theorem getSubstitution_of_no_dollar (m pre post : List Char) :
    ∀ repl : List Char, '$' ∉ repl → getSubstitution m pre post repl = repl
  | [], _ => by simp [getSubstitution]
  | [c], _ => by simp [getSubstitution]
  | c :: d :: rest, h => by
    have hc : c ≠ '$' := fun e => h (by simp [e])
    have ih := getSubstitution_of_no_dollar m pre post (d :: rest)
      (fun hm => h (List.mem_cons_of_mem _ hm))
    simp [getSubstitution, hc, ih]


/-! ## The global replace with a literal pattern -/

theorem replaceFrom_nil {r : List Char} (hr : r ≠ []) (repl pre : List Char) (k : Nat) :
    replaceFrom (r.map Atom.lit) repl pre k [] = [] := by
  cases r with
  | nil => exact absurd rfl hr
  | cons c r => cases k <;> simp [replaceFrom, matchHere]

theorem replaceFrom_succ_cons (atoms : List Atom) (repl pre : List Char) (k : Nat) (c : Char)
    (s : List Char) :
    replaceFrom atoms repl pre (k + 1) (c :: s) = replaceFrom atoms repl (pre ++ [c]) k s := by
  rw [replaceFrom]

theorem replaceFrom_zero_cons_some (atoms : List Atom) (repl pre : List Char) (c : Char)
    (s m post : List Char) (n : Nat) (h : matchHere atoms (c :: s) = some (m, post))
    (hn : m.length = n + 1) :
    replaceFrom atoms repl pre 0 (c :: s)
      = getSubstitution m pre post repl ++ replaceFrom atoms repl (pre ++ [c]) n s := by
  rw [replaceFrom, h]
  simp only [hn]

theorem replaceFrom_zero_cons_none (atoms : List Atom) (repl pre : List Char) (c : Char)
    (s : List Char) (h : matchHere atoms (c :: s) = none) :
    replaceFrom atoms repl pre 0 (c :: s) = c :: replaceFrom atoms repl (pre ++ [c]) 0 s := by
  rw [replaceFrom, h]

/-- Characters covered by the last match are passed over. -/
theorem replaceFrom_skip (atoms : List Atom) (repl : List Char) :
    ∀ (m pre s : List Char),
      replaceFrom atoms repl pre m.length (m ++ s) = replaceFrom atoms repl (pre ++ m) 0 s := by
  intro m
  induction m with
  | nil => intro pre s; simp
  | cons c m ih =>
    intro pre s
    rw [List.length_cons, List.cons_append, replaceFrom_succ_cons, ih]
    simp

/-- Where the pattern does not match, the character is kept. -/
theorem replaceFrom_keep {r : List Char} (repl pre : List Char) (c : Char) (s : List Char)
    (h : ¬ r <+: c :: s) :
    replaceFrom (r.map Atom.lit) repl pre 0 (c :: s)
      = c :: replaceFrom (r.map Atom.lit) repl (pre ++ [c]) 0 s := by
  exact replaceFrom_zero_cons_none _ _ _ _ _ (matchHere_lits_none h)

/-- Where the pattern matches, the replacement is written and the scan goes on after the
match. -/
theorem replaceFrom_match {r : List Char} (hr : r ≠ []) {repl : List Char}
    (hrepl : '$' ∉ repl) (pre s : List Char) :
    replaceFrom (r.map Atom.lit) repl pre 0 (r ++ s)
      = repl ++ replaceFrom (r.map Atom.lit) repl (pre ++ r) 0 s := by
  cases r with
  | nil => exact absurd rfl hr
  | cons c r =>
    have hm := matchHere_lits_append (c :: r) s
    rw [List.cons_append] at hm
    rw [List.cons_append, replaceFrom_zero_cons_some _ _ _ _ _ _ _ r.length hm rfl,
      getSubstitution_of_no_dollar _ _ _ _ hrepl, replaceFrom_skip]
    simp

/-- A text in which the pattern does not occur is left as it is. -/
theorem replaceFrom_of_not_infix {r : List Char} (hr : r ≠ []) (repl : List Char) :
    ∀ (t pre : List Char), ¬ r <:+: t → replaceFrom (r.map Atom.lit) repl pre 0 t = t := by
  intro t
  induction t with
  | nil => intro pre _; exact replaceFrom_nil hr repl pre 0
  | cons c t ih =>
    intro pre h
    rw [List.infix_cons_iff] at h
    push_neg at h
    rw [replaceFrom_keep repl pre c t h.1, ih _ h.2]

/-- The pattern applied to exactly the text it matches gives the replacement. -/
theorem replaceFrom_self {r : List Char} (hr : r ≠ []) {repl : List Char}
    (hrepl : '$' ∉ repl) (pre : List Char) :
    replaceFrom (r.map Atom.lit) repl pre 0 r = repl := by
  have := replaceFrom_match hr hrepl pre []
  simpa [replaceFrom_nil hr] using this

theorem replace_literalPattern (source old new text : List Char) :
    replace text (literalPattern source old new).regex (literalPattern source old new).replacement
      = replaceFrom (old.map Atom.lit) new [] 0 text := rfl

/-- Counting characters: a text with fewer `p`-characters than the pattern cannot hold it. -/
theorem not_infix_of_countP_lt (p : Char → Bool) {r t : List Char}
    (h : t.countP p < r.countP p) : ¬ r <:+: t := by
  intro hin
  have := hin.sublist.countP_le p
  omega

/-! ## Renderings of a valid identifier -/

theorem plain_of_isIdPart {p : List Char} (h : isIdPart p = true) : Plain p := by
  intro x hx
  obtain ⟨h1, h2, h3, h4, _, h6, _⟩ := partCharFacts x (isIdPart_partChar h x hx)
  exact ⟨h1, h2, h3, h4, h6⟩

theorem plain_title (cm : CaseMapping) {p : List Char} (h : isIdPart p = true) : Plain
    (title cm p) := by
  obtain ⟨c, rest, hp, ht, hc, hrest⟩ := title_shape cm h
  rw [ht]
  intro x hx
  rcases List.mem_cons.1 hx with rfl | hx
  · obtain ⟨h1, h2, h3, h4, _, h6, _⟩ := upperCharFacts c hc
    exact ⟨h1, h2, h3, h4, h6⟩
  · obtain ⟨h1, h2, h3, h4, _, h6, _⟩ := partCharFacts x (hrest x hx)
    exact ⟨h1, h2, h3, h4, h6⟩

theorem Plain.append {a b : List Char} (ha : Plain a) (hb : Plain b) : Plain (a ++ b) := by
  intro x hx
  rcases List.mem_append.1 hx with h | h
  · exact ha x h
  · exact hb x h

theorem Plain.countP_dot {s : List Char} (h : Plain s) :
    s.countP (fun c => decide (c = '.')) = 0 := by
  rw [List.countP_eq_zero]
  intro x hx
  simpa using (h x hx).2.2.1

theorem Plain.countP_dash {s : List Char} (h : Plain s) :
    s.countP (fun c => decide (c = '-')) = 0 := by
  rw [List.countP_eq_zero]
  intro x hx
  simpa using (h x hx).2.2.2.1

theorem countP_upper_part {p : List Char} (h : isIdPart p = true) :
    p.countP Char.isUpper = 0 := by
  rw [List.countP_eq_zero]
  intro x hx
  have := (partCharFacts x (isIdPart_partChar h x hx)).2.2.2.2.1
  simp [this]

theorem countP_upper_title (cm : CaseMapping) {p : List Char} (h : isIdPart p = true) :
    (title cm p).countP Char.isUpper = 1 := by
  obtain ⟨c, rest, hp, ht, hc, hrest⟩ := title_shape cm h
  have hrest0 : rest.countP Char.isUpper = 0 := by
    rw [List.countP_eq_zero]
    intro x hx
    have := (partCharFacts x (hrest x hx)).2.2.2.2.1
    simp [this]
  rw [ht, List.countP_cons_of_pos _ _ (upperCharFacts c hc).2.2.2.2.1, hrest0]

theorem Plain.word {s : List Char} (h : Plain s) : ∀ x ∈ s, isWordChar x = true :=
  fun x hx => (h x hx).2.2.2.2

theorem Plain.no_dollar {s : List Char} (h : Plain s) : '$' ∉ s :=
  fun hx => (h _ hx).2.1 rfl

theorem rendering_dotted {a b : List Char} (ha : isIdPart a = true) (hb : isIdPart b = true) :
    Rendering (dotted a b) 1 0 0 := by
  have pa := plain_of_isIdPart ha
  have pb := plain_of_isIdPart hb
  refine ⟨?_, ?_, ?_, ?_, ?_, ?_⟩
  · simp [dotted]
  · intro x hx
    simp only [dotted, List.mem_append, List.mem_singleton] at hx
    rcases hx with (h | h) | h
    · exact pa.word x h
    · subst h; decide
    · exact pb.word x h
  · intro hx
    simp only [dotted, List.mem_append, List.mem_singleton] at hx
    rcases hx with (h | h) | h
    · exact pa.no_dollar h
    · exact absurd h (by decide)
    · exact pb.no_dollar h
  · simp [dotted, List.countP_append, pa.countP_dot, pb.countP_dot]
  · simp [dotted, List.countP_append, pa.countP_dash, pb.countP_dash]
  · simp [dotted, List.countP_append, countP_upper_part ha, countP_upper_part hb]

theorem rendering_dashed {a b : List Char} (ha : isIdPart a = true) (hb : isIdPart b = true) :
    Rendering (dashed a b) 0 1 0 := by
  have pa := plain_of_isIdPart ha
  have pb := plain_of_isIdPart hb
  refine ⟨?_, ?_, ?_, ?_, ?_, ?_⟩
  · simp [dashed]
  · intro x hx
    simp only [dashed, List.mem_append, List.mem_singleton] at hx
    rcases hx with (h | h) | h
    · exact pa.word x h
    · subst h; decide
    · exact pb.word x h
  · intro hx
    simp only [dashed, List.mem_append, List.mem_singleton] at hx
    rcases hx with (h | h) | h
    · exact pa.no_dollar h
    · exact absurd h (by decide)
    · exact pb.no_dollar h
  · simp [dashed, List.countP_append, pa.countP_dot, pb.countP_dot]
  · simp [dashed, List.countP_append, pa.countP_dash, pb.countP_dash]
  · simp [dashed, List.countP_append, countP_upper_part ha, countP_upper_part hb]

theorem rendering_titleCase (cm : CaseMapping) {a b : List Char} (ha : isIdPart a = true)
    (hb : isIdPart b = true) :
    Rendering (titleCase cm a b) 0 0 2 := by
  have pa := plain_title cm ha
  have pb := plain_title cm hb
  have pab := pa.append pb
  refine ⟨?_, pab.word, pab.no_dollar, pab.countP_dot, pab.countP_dash, ?_⟩
  · simp [titleCase, title_ne_nil cm ha]
  · simp [titleCase, List.countP_append, countP_upper_title cm ha, countP_upper_title cm hb]

theorem rendering_camelCase (cm : CaseMapping) {a b : List Char} (ha : isIdPart a = true)
    (hb : isIdPart b = true) :
    Rendering (camelCase cm a b) 0 0 1 := by
  have pa := plain_of_isIdPart ha
  have pb := plain_title cm hb
  have pab := pa.append pb
  refine ⟨?_, pab.word, pab.no_dollar, pab.countP_dot, pab.countP_dash, ?_⟩
  · simp [camelCase, isIdPart_ne_nil ha]
  · simp [camelCase, List.countP_append, countP_upper_part ha, countP_upper_title cm hb]

/-! ## The job and its patterns -/

theorem constructor_ok {o : Options} {job : Job} (h : constructor cm o = Except.ok job) :
    job.oldDir = normalize o.path ∧
    job.oldFull = (split '/' (normalize o.path)).getLastD [] ∧
    matchAppId job.oldFull = some (job.oldTenantAlias, job.oldAppName) ∧
    job.newFull = cm.toLowerCase o.appId ∧
    matchAppId job.newFull = some (job.newTenantAlias, job.newAppName) ∧
    job.newDir = replaceString job.oldDir job.oldFull job.newFull ∧
    job.verbose = o.verbose ∧ job.silent = o.silent ∧ job.dryRun = o.dryRun := by
  unfold constructor at h
  simp only at h
  split at h
  · exact absurd h (by simp)
  · rename_i ot oa hold
    split at h
    · exact absurd h (by simp)
    · rename_i nt na hnew
      simp only [Except.ok.injEq] at h
      subst h
      exact ⟨rfl, rfl, hold, rfl, hnew, rfl, rfl, rfl, rfl⟩

theorem constructor_valid (cm : CaseMapping) {o : Options} {job : Job}
    (h : constructor cm o = Except.ok job) :
    job.Valid := by
  obtain ⟨_, _, hold, _, hnew, _⟩ := constructor_ok h
  obtain ⟨_, h1, h2⟩ := matchAppId_some hold
  obtain ⟨_, h3, h4⟩ := matchAppId_some hnew
  exact ⟨h1, h2, h3, h4⟩

theorem mkPattern_literal (old : List Char) (h : ∀ c ∈ old, isSyntaxCharacter c = false)
    (new : List Char) : mkPattern old new = Except.ok (literalPattern old old new) := by
  unfold mkPattern RegExp.new
  rw [compile_lits h]
  rfl

theorem mkPattern_dotted {a b : List Char} (ha : isIdPart a = true) (hb : isIdPart b = true)
    (new : List Char) :
    mkPattern (a ++ [backslash, '.'] ++ b) new
      = Except.ok (literalPattern (a ++ [backslash, '.'] ++ b) (dotted a b) new) := by
  have pa := plain_of_isIdPart ha
  have pb := plain_of_isIdPart hb
  have hc : compile (a ++ [backslash, '.'] ++ b) = some ((dotted a b).map Atom.lit) := by
    rw [List.append_assoc, compile_lits_append (fun c hc => (pa c hc).1)]
    simp only [List.cons_append, List.nil_append, compile_escaped_dot]
    rw [compile_lits (fun c hc => (pb c hc).1)]
    simp [dotted]
  unfold mkPattern RegExp.new
  rw [hc]
  rfl

theorem dashed_ordinary {a b : List Char} (ha : isIdPart a = true) (hb : isIdPart b = true) :
    ∀ c ∈ dashed a b, isSyntaxCharacter c = false := by
  intro x hx
  simp only [dashed, List.mem_append, List.mem_singleton] at hx
  rcases hx with (hx | hx) | hx
  · exact (plain_of_isIdPart ha x hx).1
  · subst hx; decide
  · exact (plain_of_isIdPart hb x hx).1

theorem generatePatterns_valid (cm : CaseMapping) {job : Job} (h : job.Valid) :
    generatePatterns cm job = Except.ok (expectedPatterns cm job) := by
  obtain ⟨h1, h2, h3, h4⟩ := h
  have e1 := mkPattern_dotted h1 h2 (job.newTenantAlias ++ ['.'] ++ job.newAppName)
  have e2 := mkPattern_literal _ (dashed_ordinary h1 h2)
    (job.newTenantAlias ++ ['-'] ++ job.newAppName)
  have e3 := mkPattern_literal (titleCase cm job.oldTenantAlias job.oldAppName)
    (fun c hc => ((plain_title cm h1).append (plain_title cm h2) c hc).1)
    (title cm job.newTenantAlias ++ title cm job.newAppName)
  have e4 := mkPattern_literal (camelCase cm job.oldTenantAlias job.oldAppName)
    (fun c hc => ((plain_of_isIdPart h1).append (plain_title cm h2) c hc).1)
    (job.newTenantAlias ++ title cm job.newAppName)
  unfold dashed at e2
  unfold titleCase at e3
  unfold camelCase at e4
  unfold generatePatterns
  simp only [e1, e2, e3, e4]
  rfl

/-! ## The four patterns applied in order -/

theorem Rendering.not_infix_of_dots {r t : List Char} {d1 s1 u1 d2 s2 u2 : Nat}
    (hr : Rendering r d1 s1 u1) (ht : Rendering t d2 s2 u2) (h : d2 < d1) : ¬ r <:+: t :=
  not_infix_of_countP_lt _ (by rw [hr.dots_eq, ht.dots_eq]; exact h)

theorem Rendering.not_infix_of_dashes {r t : List Char} {d1 s1 u1 d2 s2 u2 : Nat}
    (hr : Rendering r d1 s1 u1) (ht : Rendering t d2 s2 u2) (h : s2 < s1) : ¬ r <:+: t :=
  not_infix_of_countP_lt _ (by rw [hr.dashes_eq, ht.dashes_eq]; exact h)

theorem Rendering.not_infix_of_uppers {r t : List Char} {d1 s1 u1 d2 s2 u2 : Nat}
    (hr : Rendering r d1 s1 u1) (ht : Rendering t d2 s2 u2) (h : u2 < u1) : ¬ r <:+: t :=
  not_infix_of_countP_lt _ (by rw [hr.uppers_eq, ht.uppers_eq]; exact h)

/-- The four patterns of a job with valid parts, as four literal replacements in turn. -/
theorem applyPatterns_expected (job : Job) (t : List Char) :
    applyPatterns (expectedPatterns cm job) t =
      replaceFrom ((camelCase cm job.oldTenantAlias job.oldAppName).map Atom.lit)
        (camelCase cm job.newTenantAlias job.newAppName) [] 0
        (replaceFrom ((titleCase cm job.oldTenantAlias job.oldAppName).map Atom.lit)
          (titleCase cm job.newTenantAlias job.newAppName) [] 0
          (replaceFrom ((dashed job.oldTenantAlias job.oldAppName).map Atom.lit)
            (dashed job.newTenantAlias job.newAppName) [] 0
            (replaceFrom ((dotted job.oldTenantAlias job.oldAppName).map Atom.lit)
              (dotted job.newTenantAlias job.newAppName) [] 0 t))) := rfl

/-- A text in which no old rendering occurs is left as it is by the four patterns. -/
theorem applyPatterns_of_no_occurrence (cm : CaseMapping) {job : Job} (hv : job.Valid)
    (t : List Char)
    (h : ∀ r ∈ oldRenderings cm job, ¬ r <:+: t) :
    applyPatterns (expectedPatterns cm job) t = t := by
  obtain ⟨h1, h2, _, _⟩ := hv
  have hdot := h (dotted job.oldTenantAlias job.oldAppName) (by simp [oldRenderings])
  have hdash := h (dashed job.oldTenantAlias job.oldAppName) (by simp [oldRenderings])
  have htitle := h (titleCase cm job.oldTenantAlias job.oldAppName) (by simp [oldRenderings])
  have hcamel := h (camelCase cm job.oldTenantAlias job.oldAppName) (by simp [oldRenderings])
  rw [applyPatterns_expected,
    replaceFrom_of_not_infix (rendering_dotted h1 h2).ne_nil _ _ _ hdot,
    replaceFrom_of_not_infix (rendering_dashed h1 h2).ne_nil _ _ _ hdash,
    replaceFrom_of_not_infix (rendering_titleCase cm h1 h2).ne_nil _ _ _ htitle,
    replaceFrom_of_not_infix (rendering_camelCase cm h1 h2).ne_nil _ _ _ hcamel]

theorem applyPatterns_dotted {job : Job} (hv : job.Valid) :
    applyPatterns (expectedPatterns cm job) (dotted job.oldTenantAlias job.oldAppName)
      = dotted job.newTenantAlias job.newAppName := by
  obtain ⟨h1, h2, h3, h4⟩ := hv
  have od := rendering_dotted h1 h2
  have os := rendering_dashed h1 h2
  have ot := rendering_titleCase cm h1 h2
  have oc := rendering_camelCase cm h1 h2
  have nd := rendering_dotted h3 h4
  rw [applyPatterns_expected, replaceFrom_self od.ne_nil nd.no_dollar,
    replaceFrom_of_not_infix os.ne_nil _ _ _ (os.not_infix_of_dashes nd (by omega)),
    replaceFrom_of_not_infix ot.ne_nil _ _ _ (ot.not_infix_of_uppers nd (by omega)),
    replaceFrom_of_not_infix oc.ne_nil _ _ _ (oc.not_infix_of_uppers nd (by omega))]

theorem applyPatterns_dashed {job : Job} (hv : job.Valid) :
    applyPatterns (expectedPatterns cm job) (dashed job.oldTenantAlias job.oldAppName)
      = dashed job.newTenantAlias job.newAppName := by
  obtain ⟨h1, h2, h3, h4⟩ := hv
  have od := rendering_dotted h1 h2
  have os := rendering_dashed h1 h2
  have ot := rendering_titleCase cm h1 h2
  have oc := rendering_camelCase cm h1 h2
  have ns := rendering_dashed h3 h4
  rw [applyPatterns_expected,
    replaceFrom_of_not_infix od.ne_nil _ _ _ (od.not_infix_of_dots os (by omega)),
    replaceFrom_self os.ne_nil ns.no_dollar,
    replaceFrom_of_not_infix ot.ne_nil _ _ _ (ot.not_infix_of_uppers ns (by omega)),
    replaceFrom_of_not_infix oc.ne_nil _ _ _ (oc.not_infix_of_uppers ns (by omega))]

theorem applyPatterns_camelCase {job : Job} (hv : job.Valid) :
    applyPatterns (expectedPatterns cm job) (camelCase cm job.oldTenantAlias job.oldAppName)
      = camelCase cm job.newTenantAlias job.newAppName := by
  obtain ⟨h1, h2, h3, h4⟩ := hv
  have od := rendering_dotted h1 h2
  have os := rendering_dashed h1 h2
  have ot := rendering_titleCase cm h1 h2
  have oc := rendering_camelCase cm h1 h2
  have nc := rendering_camelCase cm h3 h4
  rw [applyPatterns_expected,
    replaceFrom_of_not_infix od.ne_nil _ _ _ (od.not_infix_of_dots oc (by omega)),
    replaceFrom_of_not_infix os.ne_nil _ _ _ (os.not_infix_of_dashes oc (by omega)),
    replaceFrom_of_not_infix ot.ne_nil _ _ _ (ot.not_infix_of_uppers oc (by omega)),
    replaceFrom_self oc.ne_nil nc.no_dollar]

theorem applyPatterns_titleCase {job : Job} (hv : job.Valid)
    (hfree : ¬ camelCase cm job.oldTenantAlias job.oldAppName
      <:+: titleCase cm job.newTenantAlias job.newAppName) :
    applyPatterns (expectedPatterns cm job) (titleCase cm job.oldTenantAlias job.oldAppName)
      = titleCase cm job.newTenantAlias job.newAppName := by
  obtain ⟨h1, h2, h3, h4⟩ := hv
  have od := rendering_dotted h1 h2
  have os := rendering_dashed h1 h2
  have ot := rendering_titleCase cm h1 h2
  have oc := rendering_camelCase cm h1 h2
  have nt := rendering_titleCase cm h3 h4
  rw [applyPatterns_expected,
    replaceFrom_of_not_infix od.ne_nil _ _ _ (od.not_infix_of_dots ot (by omega)),
    replaceFrom_of_not_infix os.ne_nil _ _ _ (os.not_infix_of_dashes ot (by omega)),
    replaceFrom_self ot.ne_nil nt.no_dollar,
    replaceFrom_of_not_infix oc.ne_nil _ _ _ hfree]

/-! ## The constructor -/

theorem matchAppId_eq_none_iff (s : List Char) : matchAppId s = none ↔ ¬ IsAppId s := by
  constructor
  · rintro h ⟨a, b, rfl, ha, hb⟩
    rw [matchAppId_dotted ha hb] at h
    exact absurd h (by simp)
  · intro h
    cases hm : matchAppId s with
    | none => rfl
    | some res =>
      obtain ⟨a, b⟩ := res
      exact absurd ⟨a, b, matchAppId_some hm⟩ h

theorem constructor_error_iff (o : Options) :
    (∃ e, constructor cm o = Except.error e) ↔
      (matchAppId (lastSegment o.path) = none ∨ matchAppId (cm.toLowerCase o.appId) = none) := by
  unfold constructor lastSegment
  simp only
  cases h1 : matchAppId ((split '/' (normalize o.path)).getLastD []) with
  | none => simp
  | some r1 =>
    obtain ⟨ot, oa⟩ := r1
    cases h2 : matchAppId (cm.toLowerCase o.appId) with
    | none => simp
    | some r2 =>
      obtain ⟨nt, na⟩ := r2
      simp

/-- Lower-casing leaves an app ID as it is. -/
theorem toLowerCase_appId (cm : CaseMapping) {s : List Char} (h : IsAppId s) :
    cm.toLowerCase s = s := by
  obtain ⟨a, b, rfl, ha, hb⟩ := h
  apply toLowerCase_fixed
  intro x hx
  simp only [List.mem_append, List.mem_cons] at hx
  rcases hx with hx | hx | hx
  · exact Or.inl (isIdPart_partChar ha x hx)
  · exact Or.inr hx
  · exact Or.inl (isIdPart_partChar hb x hx)

/-- The patterns of a job with valid parts are the same for every case mapping. -/
theorem title_congr (cm1 cm2 : CaseMapping) {p : List Char} (h : isIdPart p = true) :
    title cm1 p = title cm2 p := by
  obtain ⟨c, rest, hp, ht1, _, _⟩ := title_shape cm1 h
  obtain ⟨c2, rest2, hp2, ht2, _, _⟩ := title_shape cm2 h
  rw [hp] at hp2
  simp only [List.cons.injEq] at hp2
  rw [ht1, ht2, hp2.1, hp2.2]

theorem expectedPatterns_congr (cm1 cm2 : CaseMapping) {job : Job} (hv : job.Valid) :
    expectedPatterns cm1 job = expectedPatterns cm2 job := by
  obtain ⟨h1, h2, h3, h4⟩ := hv
  unfold expectedPatterns titleCase camelCase
  rw [title_congr cm1 cm2 h1, title_congr cm1 cm2 h2, title_congr cm1 cm2 h3,
    title_congr cm1 cm2 h4]

/-! ## The run -/

theorem rewriteLoop_eq (patterns : List Pattern) (content path : List Char) :
    rewriteLoop patterns (content, path)
      = (applyPatterns patterns content, applyPatterns patterns path) := by
  induction patterns generalizing content path with
  | nil => rfl
  | cons p rest ih => simp only [rewriteLoop, applyPatterns, ih]

/-- In a dry run `rewrite` reads the file and does nothing else. -/
theorem rewrite_dryRun {σ : Type} (fs : FileSystem σ) (job : Job) (hdry : job.dryRun = true)
    (path : List Char) (patterns : List Pattern) (st : σ) :
    (rewrite fs job path patterns st).state = st ∧
    (rewrite fs job path patterns st).ops = [Op.readFile (normalize (join job.oldDir path))] := by
  unfold rewrite
  simp only [hdry, rewriteLoop_eq]
  cases fs.readFile (normalize (join job.oldDir path)) st with
  | error code => exact ⟨rfl, rfl⟩
  | ok content => exact ⟨rfl, rfl⟩

theorem rewriteAll_dryRun {σ : Type} (fs : FileSystem σ) (job : Job) (hdry : job.dryRun = true)
    (patterns : List Pattern) (paths : List (List Char)) (st : σ) :
    (rewriteAll fs job patterns paths st).state = st ∧
    ∀ op ∈ (rewriteAll fs job patterns paths st).ops, op.isMutation = false := by
  induction paths with
  | nil => exact ⟨rfl, by simp [rewriteAll]⟩
  | cons path rest ih =>
    obtain ⟨hs, ho⟩ := rewrite_dryRun fs job hdry path patterns st
    unfold rewriteAll
    simp only
    cases hr : (rewrite fs job path patterns st).result with
    | error e =>
      simp only [hs, ho]
      exact ⟨trivial, by simp [Op.isMutation]⟩
    | ok u =>
      simp only [hs, ho]
      refine ⟨ih.1, ?_⟩
      intro op hop
      rcases List.mem_append.1 hop with h | h
      · simp only [List.mem_singleton] at h
        subst h
        rfl
      · exact ih.2 op h

theorem start_dryRun {σ : Type} (fs : FileSystem σ) (job : Job) (hdry : job.dryRun = true)
    (st : σ) :
    (start cm fs job st).state = st ∧
    ∀ op ∈ (start cm fs job st).ops, op.isMutation = false := by
  unfold start
  simp only
  cases fs.access (normalize (join job.oldDir manifestName)) st with
  | error code => exact ⟨rfl, by simp [Op.isMutation]⟩
  | ok u =>
    cases generatePatterns cm job with
    | error e => exact ⟨rfl, by simp [Op.isMutation]⟩
    | ok patterns =>
      cases fs.glob globPattern job.oldDir st with
      | error code => exact ⟨rfl, by simp [Op.isMutation]⟩
      | ok paths =>
        obtain ⟨hs, ho⟩ := rewriteAll_dryRun fs job hdry patterns paths st
        simp only
        cases hr : (rewriteAll fs job patterns paths st).result with
        | error e =>
          refine ⟨hs, ?_⟩
          intro op hop
          simp only [List.cons_append, List.nil_append, List.mem_cons] at hop
          rcases hop with h | h | h
          · subst h; rfl
          · subst h; rfl
          · exact ho op h
        | ok u2 =>
          simp only [hdry, if_true]
          refine ⟨hs, ?_⟩
          intro op hop
          simp only [List.cons_append, List.nil_append, List.mem_cons] at hop
          rcases hop with h | h | h
          · subst h; rfl
          · subst h; rfl
          · exact ho op h

/-! ## Texts of renderings and separators -/

theorem not_prefix_of_separator {r : List Char} (hr : r ≠ [])
    (hword : ∀ x ∈ r, isWordChar x = true) {c : Char} (hc : isWordChar c = false)
    (s : List Char) : ¬ r <+: c :: s := by
  cases r with
  | nil => exact absurd rfl hr
  | cons a r =>
    intro h
    rw [List.cons_prefix_cons] at h
    have := hword a (List.mem_cons_self _ _)
    rw [h.1, hc] at this
    exact absurd this (by simp)

/-- Separators in front of a text are kept by the replace. -/
theorem replaceFrom_separators {r : List Char} (hr : r ≠ [])
    (hword : ∀ x ∈ r, isWordChar x = true) (repl : List Char) :
    ∀ (u : List Char), IsSeparators u → ∀ (pre s : List Char),
      replaceFrom (r.map Atom.lit) repl pre 0 (u ++ s)
        = u ++ replaceFrom (r.map Atom.lit) repl (pre ++ u) 0 s := by
  intro u
  induction u with
  | nil => intro _ pre s; simp
  | cons c u ih =>
    intro hu pre s
    have hc := hu c (List.mem_cons_self _ _)
    rw [List.cons_append, replaceFrom_keep repl pre c (u ++ s)
      (not_prefix_of_separator hr hword hc _),
      ih (fun x hx => hu x (List.mem_cons_of_mem _ hx))]
    simp

/-- The replace with a literal pattern on a text of occurrences and separators. -/
theorem replaceFrom_interleave {r : List Char} (hr : r ≠ [])
    (hword : ∀ x ∈ r, isWordChar x = true) {repl : List Char} (hrepl : '$' ∉ repl) :
    ∀ (us : List (List Char)), (∀ u ∈ us, IsSeparators u) →
      ∀ (u0 pre : List Char), IsSeparators u0 →
        replaceFrom (r.map Atom.lit) repl pre 0 (interleave r u0 us) = interleave repl u0 us := by
  intro us
  induction us with
  | nil =>
    intro _ u0 pre hu0
    simp only [interleave, List.map_nil, List.flatten_nil]
    rw [replaceFrom_separators hr hword repl u0 hu0, replaceFrom_nil hr]
  | cons u us ih =>
    intro hus u0 pre hu0
    have e1 : interleave r u0 (u :: us) = u0 ++ (r ++ interleave r u us) := by
      simp [interleave]
    have e2 : interleave repl u0 (u :: us) = u0 ++ (repl ++ interleave repl u us) := by
      simp [interleave]
    rw [e1, e2, replaceFrom_separators hr hword repl u0 hu0, replaceFrom_match hr hrepl,
      ih (fun v hv => hus v (List.mem_cons_of_mem _ hv)) u _ (hus u (List.mem_cons_self _ _))]

theorem prefix_stops_at_separator {r : List Char} (hword : ∀ x ∈ r, isWordChar x = true)
    {c : Char} (hc : isWordChar c = false) {x s : List Char} (h : r <+: x ++ c :: s) :
    r <+: x := by
  rcases List.prefix_or_prefix_of_prefix h (List.prefix_append x (c :: s)) with h1 | h1
  · exact h1
  · obtain ⟨t, rfl⟩ := h1
    rw [List.prefix_append_right_inj, List.prefix_cons_iff] at h
    rcases h with rfl | ⟨t2, rfl, _⟩
    · simp
    · have := hword c (by simp)
      rw [hc] at this
      exact absurd this (by simp)

theorem not_infix_separators_append {r : List Char} (hr : r ≠ [])
    (hword : ∀ x ∈ r, isWordChar x = true) :
    ∀ (u : List Char), IsSeparators u → ∀ t : List Char, ¬ r <:+: t → ¬ r <:+: u ++ t := by
  intro u
  induction u with
  | nil => intro _ t ht; simpa using ht
  | cons c u ih =>
    intro hu t ht
    rw [List.cons_append, List.infix_cons_iff]
    push_neg
    exact ⟨not_prefix_of_separator hr hword (hu c (List.mem_cons_self _ _)) _,
      ih (fun x hx => hu x (List.mem_cons_of_mem _ hx)) t ht⟩

theorem not_infix_append_separator {r : List Char} (hword : ∀ x ∈ r, isWordChar x = true)
    {c : Char} (hc : isWordChar c = false) (t : List Char) (ht : ¬ r <:+: c :: t) :
    ∀ n : List Char, ¬ r <:+: n → ¬ r <:+: n ++ c :: t := by
  intro n
  induction n with
  | nil => intro _; simpa using ht
  | cons a n ih =>
    intro hn
    rw [List.cons_append, List.infix_cons_iff]
    push_neg
    constructor
    · intro h
      have h2 : r <+: a :: n := by
        have h3 : r <+: (a :: n) ++ c :: t := by simpa using h
        exact prefix_stops_at_separator hword hc h3
      exact hn h2.isInfix
    · exact ih (fun h => hn (List.infix_cons h))

/-- An old rendering that occurs in no block of a text of renderings and separators, with
a separator between any two blocks, does not occur in the text. -/
theorem not_infix_assemble {r : List Char} (hr : r ≠ [])
    (hword : ∀ x ∈ r, isWordChar x = true) :
    ∀ (blocks : List (List Char × List Char)),
      (∀ b ∈ blocks, ¬ r <:+: b.1 ∧ IsSeparators b.2) →
      (∀ b ∈ blocks.dropLast, b.2 ≠ []) →
      ∀ u0 : List Char, IsSeparators u0 → ¬ r <:+: assemble u0 blocks := by
  intro blocks
  induction blocks with
  | nil =>
    intro _ _ u0 hu0
    unfold assemble
    refine not_infix_separators_append hr hword u0 hu0 _ ?_
    simpa using hr
  | cons b bs ih =>
    intro hb hsep u0 hu0
    obtain ⟨n, v⟩ := b
    have e : assemble u0 ((n, v) :: bs) = u0 ++ (n ++ assemble v bs) := by
      simp [assemble]
    rw [e]
    refine not_infix_separators_append hr hword u0 hu0 _ ?_
    obtain ⟨hb1, hb2⟩ := hb (n, v) (List.mem_cons_self _ _)
    simp only at hb1 hb2
    have hrest : ¬ r <:+: assemble v bs := by
      apply ih (fun x hx => hb x (List.mem_cons_of_mem _ hx)) _ v hb2
      intro x hx
      apply hsep x
      cases bs with
      | nil => simp at hx
      | cons b2 bs2 => simp only [List.dropLast_cons₂]; exact List.mem_cons_of_mem _ hx
    cases v with
    | nil =>
      cases bs with
      | nil => simpa [assemble] using hb1
      | cons b2 bs2 =>
        exact absurd rfl (hsep (n, []) (by simp))
    | cons c u =>
      have e2 : assemble (c :: u) bs = c :: assemble u bs := by
        simp [assemble]
      rw [e2] at hrest ⊢
      exact not_infix_append_separator hword (hb2 c (by simp)) _ hrest _ hb1

/-! ## Parsing and capitalising -/

theorem isIdPart_length {p : List Char} (h : isIdPart p = true) : 2 ≤ p.length := by
  obtain ⟨c, d, rest, rfl, _, _⟩ := isIdPart_shape h
  simp

theorem toLowerCase_part (cm : CaseMapping) {p : List Char}
    (h : ∀ x ∈ p, isPartChar x = true) : cm.toLowerCase p = p :=
  toLowerCase_fixed cm (fun x hx => Or.inl (h x hx))

theorem toUpper_ne_of_lower {c : Char} (hc : c.isLower = true) : c.toUpper ≠ c := by
  intro he
  have h1 := (upperCharFacts c hc).2.2.2.2.2.2.1
  rw [he] at h1
  have h2 : isPartChar c = true := by simp [isPartChar, hc]
  rw [h2] at h1
  exact absurd h1 (by simp)

/-! ## Failures during the run -/

/-- The loop stops at the first file whose rewrite fails. -/
theorem rewriteAll_cons_error {σ : Type} (fs : FileSystem σ) (job : Job)
    (patterns : List Pattern) (p : List Char) (post : List (List Char)) (st : σ)
    (e : RenameError) (hp : (rewrite fs job p patterns st).result = Except.error e) :
    (rewriteAll fs job patterns (p :: post) st).result = Except.error e ∧
    (rewriteAll fs job patterns (p :: post) st).state = (rewrite fs job p patterns st).state ∧
    (rewriteAll fs job patterns (p :: post) st).ops = (rewrite fs job p patterns st).ops := by
  rw [rewriteAll]
  simp only [hp]
  exact ⟨trivial, trivial, trivial⟩

/-- What `start` does once the manifest is found, the patterns are built and the listing
is there. -/
theorem start_after_listing {σ : Type} (fs : FileSystem σ) (job : Job) (st : σ)
    (patterns : List Pattern) (paths : List (List Char))
    (hacc : fs.access (normalize (join job.oldDir manifestName)) st = Except.ok ())
    (hpat : generatePatterns cm job = Except.ok patterns)
    (hglob : fs.glob globPattern job.oldDir st = Except.ok paths) :
    start cm fs job st =
      match (rewriteAll fs job patterns paths st).result with
      | Except.error e =>
        { result := Except.error e, state := (rewriteAll fs job patterns paths st).state,
          ops := [Op.access (normalize (join job.oldDir manifestName)),
                  Op.glob globPattern job.oldDir]
                 ++ (rewriteAll fs job patterns paths st).ops }
      | Except.ok _ =>
        if job.dryRun then
          { result := Except.ok (), state := (rewriteAll fs job patterns paths st).state,
            ops := [Op.access (normalize (join job.oldDir manifestName)),
                    Op.glob globPattern job.oldDir]
                   ++ (rewriteAll fs job patterns paths st).ops }
        else
          { result := liftIO (fs.rename job.oldDir job.newDir
              (rewriteAll fs job patterns paths st).state).1,
            state := (fs.rename job.oldDir job.newDir
              (rewriteAll fs job patterns paths st).state).2,
            ops := [Op.access (normalize (join job.oldDir manifestName)),
                    Op.glob globPattern job.oldDir]
                   ++ (rewriteAll fs job patterns paths st).ops
                   ++ [Op.rename job.oldDir job.newDir] } := by
  unfold start
  simp only [hacc, hpat, hglob]

/-- The calls of `rewrite` hold a `rename` only if the patterns change the path. -/
theorem rewrite_no_rename {σ : Type} (fs : FileSystem σ) (job : Job) (path : List Char)
    (patterns : List Pattern) (st : σ) (hpath : applyPatterns patterns path = path) :
    ∀ op ∈ (rewrite fs job path patterns st).ops, op.isRename = false := by
  unfold rewrite
  simp only [rewriteLoop_eq, hpath, ne_eq, not_true_eq_false, decide_False, Bool.and_false]
  cases fs.readFile (normalize (join job.oldDir path)) st with
  | error code => simp [Op.isRename]
  | ok content =>
    simp only
    cases job.dryRun with
    | true => simp [Op.isRename]
    | false =>
      simp only [Bool.not_false, if_true]
      cases fs.writeFile (normalize (join job.oldDir path)) (applyPatterns patterns content) st with
      | mk r st1 =>
        cases r with
        | error code => simp [Op.isRename]
        | ok u => simp [Op.isRename]

/-! ## The calls and the state of `rewrite` -/

/-- A rejected read ends `rewrite` at once. -/
theorem rewrite_read_rejected {σ : Type} (fs : FileSystem σ) (job : Job) (p : List Char)
    (patterns : List Pattern) (st : σ) (code : Nat)
    (hread : fs.readFile (fullPath job p) st = Except.error code) :
    (rewrite fs job p patterns st).result = Except.error (RenameError.io code) ∧
    (rewrite fs job p patterns st).state = st ∧
    (rewrite fs job p patterns st).ops = [Op.readFile (fullPath job p)] := by
  unfold fullPath at hread
  unfold rewrite fullPath
  simp only [hread]
  exact ⟨trivial, trivial, trivial⟩

/-- Outside a dry run, a rejected write ends `rewrite` after the write. -/
theorem rewrite_write_rejected {σ : Type} (fs : FileSystem σ) (job : Job)
    (hwet : job.dryRun = false) (p c : List Char) (patterns : List Pattern) (st st1 : σ)
    (code : Nat) (hread : fs.readFile (fullPath job p) st = Except.ok c)
    (hwrite : fs.writeFile (fullPath job p) (applyPatterns patterns c) st
      = (Except.error code, st1)) :
    (rewrite fs job p patterns st).result = Except.error (RenameError.io code) ∧
    (rewrite fs job p patterns st).state = st1 ∧
    (rewrite fs job p patterns st).ops
      = [Op.readFile (fullPath job p),
         Op.writeFile (fullPath job p) (applyPatterns patterns c)] := by
  unfold fullPath at hread hwrite
  unfold rewrite fullPath
  simp only [hread, rewriteLoop_eq, hwet, hwrite]
  exact ⟨rfl, rfl, rfl⟩

/-- Outside a dry run, after an accepted write of a file whose path stays, `rewrite` is
done. -/
theorem rewrite_path_kept {σ : Type} (fs : FileSystem σ) (job : Job)
    (hwet : job.dryRun = false) (p c : List Char) (patterns : List Pattern) (st st1 : σ)
    (hread : fs.readFile (fullPath job p) st = Except.ok c)
    (hwrite : fs.writeFile (fullPath job p) (applyPatterns patterns c) st
      = (Except.ok (), st1))
    (hpath : applyPatterns patterns p = p) :
    (rewrite fs job p patterns st).result = Except.ok () ∧
    (rewrite fs job p patterns st).state = st1 ∧
    (rewrite fs job p patterns st).ops
      = [Op.readFile (fullPath job p),
         Op.writeFile (fullPath job p) (applyPatterns patterns c)] := by
  unfold fullPath at hread hwrite
  unfold rewrite fullPath
  simp only [hread, rewriteLoop_eq, hwet, hwrite, hpath]
  simp

/-- Outside a dry run, after an accepted write of a file whose path changes, `rewrite`
renames the file in the state the write left, and ends as the rename ends. -/
theorem rewrite_path_changed {σ : Type} (fs : FileSystem σ) (job : Job)
    (hwet : job.dryRun = false) (p c : List Char) (patterns : List Pattern) (st st1 : σ)
    (hread : fs.readFile (fullPath job p) st = Except.ok c)
    (hwrite : fs.writeFile (fullPath job p) (applyPatterns patterns c) st
      = (Except.ok (), st1))
    (hpath : applyPatterns patterns p ≠ p) :
    (rewrite fs job p patterns st).result
      = liftIO (fs.rename (fullPath job p) (fullPath job (applyPatterns patterns p)) st1).1 ∧
    (rewrite fs job p patterns st).state
      = (fs.rename (fullPath job p) (fullPath job (applyPatterns patterns p)) st1).2 ∧
    (rewrite fs job p patterns st).ops
      = [Op.readFile (fullPath job p),
         Op.writeFile (fullPath job p) (applyPatterns patterns c),
         Op.rename (fullPath job p) (fullPath job (applyPatterns patterns p))] := by
  have hp2 : ¬ p = applyPatterns patterns p := fun he => hpath he.symm
  unfold fullPath at hread hwrite
  unfold rewrite fullPath
  simp only [hread, rewriteLoop_eq, hwet, hwrite]
  simp [hp2]

/-- The loop of `start` over files that are all rewritten with success. -/
theorem rewriteAll_of_allSucceed {σ : Type} (fs : FileSystem σ) (job : Job)
    (patterns : List Pattern) (paths : List (List Char)) (st : σ)
    (hall : allSucceed fs job patterns paths st) :
    (rewriteAll fs job patterns paths st).result = Except.ok () ∧
    (rewriteAll fs job patterns paths st).state = stateAfter fs job patterns paths st ∧
    (rewriteAll fs job patterns paths st).ops = opsOf fs job patterns paths st := by
  induction paths generalizing st with
  | nil => exact ⟨rfl, rfl, rfl⟩
  | cons p rest ih =>
    obtain ⟨hp, hrest⟩ := hall
    obtain ⟨i1, i2, i3⟩ := ih (rewrite fs job p patterns st).state hrest
    rw [rewriteAll]
    simp only [hp, i1, i2, i3]
    exact ⟨trivial, rfl, rfl⟩

/-- The loop of `start` over files of which the one after `pre` is the first to fail. -/
theorem rewriteAll_first_failure {σ : Type} (fs : FileSystem σ) (job : Job)
    (patterns : List Pattern) (pre : List (List Char)) (pk : List Char)
    (post : List (List Char)) (st : σ) (e : RenameError)
    (hpre : allSucceed fs job patterns pre st)
    (hpk : (rewrite fs job pk patterns (stateAfter fs job patterns pre st)).result
      = Except.error e) :
    (rewriteAll fs job patterns (pre ++ pk :: post) st).result = Except.error e ∧
    (rewriteAll fs job patterns (pre ++ pk :: post) st).state
      = (rewrite fs job pk patterns (stateAfter fs job patterns pre st)).state ∧
    (rewriteAll fs job patterns (pre ++ pk :: post) st).ops
      = opsOf fs job patterns pre st
        ++ (rewrite fs job pk patterns (stateAfter fs job patterns pre st)).ops := by
  induction pre generalizing st with
  | nil =>
    simp only [stateAfter] at hpk
    simp only [List.nil_append, stateAfter, opsOf]
    exact rewriteAll_cons_error fs job patterns pk post st e hpk
  | cons p rest ih =>
    obtain ⟨hp, hrest⟩ := hpre
    simp only [stateAfter] at hpk
    obtain ⟨i1, i2, i3⟩ := ih (rewrite fs job p patterns st).state hrest hpk
    rw [List.cons_append, rewriteAll]
    simp only [hp, i1, i2, i3, stateAfter, opsOf, List.append_assoc]
    exact ⟨trivial, trivial, trivial⟩

/-! ## Literal matchers -/

theorem Plain.alphanum {s : List Char} (h : Plain s) : ∀ x ∈ s, x.isAlphanum = true := by
  intro x hx
  obtain ⟨_, _, h3, h4, h5⟩ := h x hx
  simp only [isWordChar, Bool.or_eq_true, decide_eq_true_eq] at h5
  rcases h5 with (h5 | h5) | h5
  · exact h5
  · exact absurd h5 h3
  · exact absurd h5 h4

/-- A literal pattern matches at the start of a text exactly when the text starts with the
literal. -/
theorem matchHere_lits_iff (r s m post : List Char) :
    matchHere (r.map Atom.lit) s = some (m, post) ↔ (m = r ∧ s = r ++ post) := by
  constructor
  · exact matchHere_lits_some
  · rintro ⟨rfl, rfl⟩
    exact matchHere_lits_append m post

theorem dotted_rejects_other_separator (a b rest : List Char) (x : Char) (hx : x ≠ '.') :
    matchHere ((dotted a b).map Atom.lit) (a ++ x :: b ++ rest) = none := by
  apply matchHere_lits_none
  unfold dotted
  rw [List.append_assoc, List.append_assoc, List.prefix_append_right_inj]
  simp only [List.singleton_append, List.cons_append, List.cons_prefix_cons]
  intro h
  exact hx h.1.symm

/-- The patterns of scenario 1 give the expected content, for every case mapping. -/
theorem scenario_content_rewritten (cm : CaseMapping) :
    (generatePatterns cm scenarioJob).map (fun ps => applyPatterns ps scenarioContent)
      = Except.ok scenarioExpected := by
  have hsv : scenarioJob.Valid := ⟨rfl, rfl, rfl, rfl⟩
  rw [generatePatterns_valid cm hsv, expectedPatterns_congr cm sampleCase hsv]
  rfl

/-! ## Claims -/

/-- C1 (as amended): for every job the constructor accepts, `generatePatterns` returns a
list, and applying its patterns in order maps the dotted, the dashed and the camelCase
rendering of the old identifier to the same rendering of the new identifier; it maps the
TitleCase rendering to the new TitleCase rendering whenever the old camelCase rendering does
not occur in the new TitleCase rendering. On the content of scenario 1 the patterns of
`acme.widget` to `corp.gadget` give the expected content. -/
theorem renderings_rewritten (cm : CaseMapping) (o : Options) (job : Job)
    (h : constructor cm o = Except.ok job) :
    ∃ patterns, generatePatterns cm job = Except.ok patterns ∧
      applyPatterns patterns (dotted job.oldTenantAlias job.oldAppName)
        = dotted job.newTenantAlias job.newAppName ∧
      applyPatterns patterns (dashed job.oldTenantAlias job.oldAppName)
        = dashed job.newTenantAlias job.newAppName ∧
      applyPatterns patterns (camelCase cm job.oldTenantAlias job.oldAppName)
        = camelCase cm job.newTenantAlias job.newAppName ∧
      (¬ camelCase cm job.oldTenantAlias job.oldAppName
          <:+: titleCase cm job.newTenantAlias job.newAppName →
        applyPatterns patterns (titleCase cm job.oldTenantAlias job.oldAppName)
          = titleCase cm job.newTenantAlias job.newAppName) ∧
      (generatePatterns cm scenarioJob).map (fun ps => applyPatterns ps scenarioContent)
        = Except.ok scenarioExpected := by
  have hv := constructor_valid cm h
  exact ⟨expectedPatterns cm job, generatePatterns_valid cm hv, applyPatterns_dotted hv,
    applyPatterns_dashed hv, applyPatterns_camelCase hv, applyPatterns_titleCase hv,
    scenario_content_rewritten cm⟩

/-- C1, witness: scenario 1, where `acmeWidget` does not occur in `CorpGadget`. -/
theorem renderings_rewritten_witness :
    constructor sampleCase scenarioOptions = Except.ok scenarioJob ∧
    ¬ "acmeWidget".toList <:+: "CorpGadget".toList ∧
    ∃ patterns, generatePatterns sampleCase scenarioJob = Except.ok patterns ∧
      applyPatterns patterns "acme.widget".toList = "corp.gadget".toList ∧
      applyPatterns patterns "acme-widget".toList = "corp-gadget".toList ∧
      applyPatterns patterns "acmeWidget".toList = "corpGadget".toList ∧
      applyPatterns patterns "AcmeWidget".toList = "CorpGadget".toList := by
  have hfree : ¬ "acmeWidget".toList <:+: "CorpGadget".toList := by decide
  obtain ⟨ps, hps, h1, h2, h3, h4, _⟩ :=
    renderings_rewritten sampleCase scenarioOptions scenarioJob rfl
  exact ⟨rfl, hfree, ps, hps, h1, h2, h3, h4 hfree⟩

/-- C1, counterexample: with old identifier `ab.cd` and new identifier `xab.cde` the patterns
turn the old TitleCase rendering `AbCd` into `XxabCdee`, not into the new TitleCase
rendering `XabCde`: the camelCase pattern matches `abCd` inside `XabCde`. -/
theorem titleCase_counterexample :
    constructor sampleCase overlapOptions = Except.ok overlapJob ∧
    titleCase sampleCase overlapJob.oldTenantAlias overlapJob.oldAppName = "AbCd".toList ∧
    titleCase sampleCase overlapJob.newTenantAlias overlapJob.newAppName = "XabCde".toList ∧
    (generatePatterns sampleCase overlapJob).map (fun ps => applyPatterns ps "AbCd".toList)
      = Except.ok "XxabCdee".toList ∧
    "XxabCdee".toList ≠ titleCase sampleCase overlapJob.newTenantAlias overlapJob.newAppName := by
  exact ⟨rfl, rfl, rfl, rfl, by decide⟩

/-- C2: for every job the constructor accepts, `generatePatterns` returns exactly four
patterns in the order dotted, dashed, TitleCase, camelCase: the dotted matcher has the source
`ot\.oa` and matches the literal text `ot.oa`, the other matchers are the literal old
renderings, and the replacements are the same renderings of the new identifier. The list
depends on the four identifier parts only: any job with the same parts gets the same list. -/
theorem generatePatterns_four (cm : CaseMapping) (o : Options) (job : Job)
    (h : constructor cm o = Except.ok job) :
    generatePatterns cm job = Except.ok
      [{ regex := { source := job.oldTenantAlias ++ [backslash, '.'] ++ job.oldAppName,
                    atoms := (job.oldTenantAlias ++ ['.'] ++ job.oldAppName).map Atom.lit },
         replacement := job.newTenantAlias ++ ['.'] ++ job.newAppName },
       { regex := { source := job.oldTenantAlias ++ ['-'] ++ job.oldAppName,
                    atoms := (job.oldTenantAlias ++ ['-'] ++ job.oldAppName).map Atom.lit },
         replacement := job.newTenantAlias ++ ['-'] ++ job.newAppName },
       { regex := { source := title cm job.oldTenantAlias ++ title cm job.oldAppName,
                    atoms :=
                      (title cm job.oldTenantAlias ++ title cm job.oldAppName).map Atom.lit },
         replacement := title cm job.newTenantAlias ++ title cm job.newAppName },
       { regex := { source := job.oldTenantAlias ++ title cm job.oldAppName,
                    atoms := (job.oldTenantAlias ++ title cm job.oldAppName).map Atom.lit },
         replacement := job.newTenantAlias ++ title cm job.newAppName }] ∧
    ∀ other : Job,
      other.oldTenantAlias = job.oldTenantAlias → other.oldAppName = job.oldAppName →
      other.newTenantAlias = job.newTenantAlias → other.newAppName = job.newAppName →
      generatePatterns cm other = generatePatterns cm job := by
  refine ⟨generatePatterns_valid cm (constructor_valid cm h), ?_⟩
  intro other e1 e2 e3 e4
  unfold generatePatterns
  rw [e1, e2, e3, e4]

/-- C2, witness: the four patterns of scenario 1. -/
theorem generatePatterns_four_witness :
    constructor sampleCase scenarioOptions = Except.ok scenarioJob ∧
    (generatePatterns sampleCase scenarioJob).map
        (fun ps => ps.map (fun p => (p.regex.source, p.replacement)))
      = Except.ok
        [((("acme".toList ++ [backslash]) ++ ".widget".toList), "corp.gadget".toList),
         ("acme-widget".toList, "corp-gadget".toList),
         ("AcmeWidget".toList, "CorpGadget".toList),
         ("acmeWidget".toList, "corpGadget".toList)] := by
  refine ⟨rfl, ?_⟩
  rw [(generatePatterns_four sampleCase scenarioOptions scenarioJob rfl).1]
  rfl

/-- C3: for every case mapping of the engine, the constructor fails exactly when the last
segment of the normalized path is not an app ID or the lower-cased new identifier is not
one. The segments `Acme.Widget`, the empty segment, `1cme.widget` and `acmewidget` are not
app IDs. When the constructor fails, the run makes no call to the file system and leaves
its state as it was. -/
theorem constructor_fails_iff (cm : CaseMapping) (o : Options) :
    ((∃ e, constructor cm o = Except.error e) ↔
      (¬ IsAppId (lastSegment o.path) ∨ ¬ IsAppId (cm.toLowerCase o.appId))) ∧
    (¬ IsAppId "Acme.Widget".toList ∧ ¬ IsAppId [] ∧ ¬ IsAppId "1cme.widget".toList ∧
      ¬ IsAppId "acmewidget".toList) ∧
    ∀ (σ : Type) (fs : FileSystem σ) (st : σ) (e : RenameError),
      constructor cm o = Except.error e →
        (cli cm fs o st).result = Except.error e ∧ (cli cm fs o st).state = st ∧
        (cli cm fs o st).ops = [] := by
  refine ⟨?_, ⟨?_, ?_, ?_, ?_⟩, ?_⟩
  · rw [constructor_error_iff, matchAppId_eq_none_iff, matchAppId_eq_none_iff]
  · rw [← matchAppId_eq_none_iff]; rfl
  · rw [← matchAppId_eq_none_iff]; rfl
  · rw [← matchAppId_eq_none_iff]; rfl
  · rw [← matchAppId_eq_none_iff]; rfl
  · intro σ fs st e he
    unfold cli
    rw [he]
    exact ⟨rfl, rfl, rfl⟩

/-- C3, witness: the path `/apps/Acme.Widget` of scenario 5 is rejected, and the run on any
file system stops there without a call. A path that ends in a slash is rejected too, its
last segment being empty. With a case mapping that knows the Kelvin sign, the new identifier
`K` + `orp.gadget` (Kelvin sign first) is accepted as `korp.gadget`. -/
theorem constructor_fails_iff_witness :
    lastSegment upperCaseOptions.path = "Acme.Widget".toList ∧
    constructor sampleCase upperCaseOptions
      = Except.error (RenameError.invalidPath "Acme.Widget".toList) ∧
    (∀ (σ : Type) (fs : FileSystem σ) (st : σ),
      (cli sampleCase fs upperCaseOptions st).state = st ∧
      (cli sampleCase fs upperCaseOptions st).ops = []) ∧
    constructor sampleCase trailingSlashOptions = Except.error (RenameError.invalidPath []) ∧
    (¬ ∃ e, constructor sampleCase kelvinOptions = Except.error e) ∧
    (constructor sampleCase kelvinOptions).map (fun job => job.newFull)
      = Except.ok "korp.gadget".toList := by
  refine ⟨rfl, rfl, ?_, rfl, ?_, rfl⟩
  · intro σ fs st
    exact ((constructor_fails_iff sampleCase upperCaseOptions).2.2 σ fs st _ rfl).2
  · rw [(constructor_fails_iff sampleCase kelvinOptions).1]
    have hold : IsAppId (lastSegment kelvinOptions.path) :=
      ⟨"acme".toList, "widget".toList, rfl, rfl, rfl⟩
    have hnew : IsAppId (sampleCase.toLowerCase kelvinOptions.appId) :=
      ⟨"korp".toList, "gadget".toList, rfl, rfl, rfl⟩
    exact fun h => h.elim (fun h1 => h1 hold) (fun h2 => h2 hnew)

/-- C4 (as amended): for every job the constructor accepts and every text `t`, if none of
the four old renderings occurs in the text the four patterns make of `t`, then applying the
patterns a second time changes nothing. -/
theorem second_run_changes_nothing (cm : CaseMapping) (o : Options) (job : Job)
    (h : constructor cm o = Except.ok job) (t : List Char) :
    ∃ patterns, generatePatterns cm job = Except.ok patterns ∧
      ((∀ r ∈ oldRenderings cm job, ¬ r <:+: applyPatterns patterns t) →
        applyPatterns patterns (applyPatterns patterns t) = applyPatterns patterns t) := by
  have hv := constructor_valid cm h
  exact ⟨expectedPatterns cm job, generatePatterns_valid cm hv,
    applyPatterns_of_no_occurrence cm hv _⟩

/-- C4, witness: the content of scenario 1; after the first run it holds no rendering of
`acme.widget`, and a second run leaves it as it is. -/
theorem second_run_changes_nothing_witness :
    constructor sampleCase scenarioOptions = Except.ok scenarioJob ∧
    (∀ r ∈ oldRenderings sampleCase scenarioJob, ¬ r <:+: scenarioExpected) ∧
    ∃ patterns, generatePatterns sampleCase scenarioJob = Except.ok patterns ∧
      applyPatterns patterns scenarioContent = scenarioExpected ∧
      applyPatterns patterns scenarioExpected = scenarioExpected := by
  have hfree : ∀ r ∈ oldRenderings sampleCase scenarioJob, ¬ r <:+: scenarioExpected := by
    decide
  obtain ⟨ps, hps, hfix⟩ :=
    second_run_changes_nothing sampleCase scenarioOptions scenarioJob rfl scenarioContent
  have hps2 : ps = expectedPatterns sampleCase scenarioJob :=
    Except.ok.inj (hps.symm.trans (rfl : generatePatterns sampleCase scenarioJob = _))
  have hfirst : applyPatterns ps scenarioContent = scenarioExpected := by
    rw [hps2]
    rfl
  rw [hfirst] at hfix
  exact ⟨rfl, hfree, ps, hps, hfirst, hfix hfree⟩

/-- C4, counterexample: with old identifier `ab.cd` and new identifier `xab.cde` the text
`ab.cd` becomes `xab.cde` in the first run and `xxab.cdee` in the second. -/
theorem second_run_counterexample :
    constructor sampleCase overlapOptions = Except.ok overlapJob ∧
    (generatePatterns sampleCase overlapJob).map (fun ps => applyPatterns ps "ab.cd".toList)
      = Except.ok "xab.cde".toList ∧
    (generatePatterns sampleCase overlapJob).map
        (fun ps => applyPatterns ps (applyPatterns ps "ab.cd".toList))
      = Except.ok "xxab.cdee".toList ∧
    "xxab.cdee".toList ≠ "xab.cde".toList := by
  exact ⟨rfl, rfl, rfl, by decide⟩

/-- C5 (as amended): for every job the constructor accepts such that no rendering of the old
identifier occurs in a rendering of the new identifier, every text
`u0 + r1 + u1 + ... + rn + un`, in which each `ri` is one of the four new renderings, each
`ui` holds only characters outside `[A-Za-z0-9.-]`, and `u1 .. u(n-1)` are not empty, is
returned unchanged by the four patterns applied in order. -/
theorem new_text_is_fixed (cm : CaseMapping) (o : Options) (job : Job)
    (h : constructor cm o = Except.ok job)
    (hfree : ∀ r ∈ oldRenderings cm job, ∀ n ∈ newRenderings cm job, ¬ r <:+: n)
    (u0 : List Char) (blocks : List (List Char × List Char)) (hu0 : IsSeparators u0)
    (hblocks : ∀ b ∈ blocks, b.1 ∈ newRenderings cm job ∧ IsSeparators b.2)
    (hsep : ∀ b ∈ blocks.dropLast, b.2 ≠ []) :
    ∃ patterns, generatePatterns cm job = Except.ok patterns ∧
      applyPatterns patterns (assemble u0 blocks) = assemble u0 blocks := by
  have hv := constructor_valid cm h
  refine ⟨expectedPatterns cm job, generatePatterns_valid cm hv, ?_⟩
  apply applyPatterns_of_no_occurrence cm hv
  intro r hr
  have hrend : r ≠ [] ∧ ∀ x ∈ r, isWordChar x = true := by
    obtain ⟨h1, h2, _, _⟩ := hv
    simp only [oldRenderings, List.mem_cons, List.mem_singleton, List.not_mem_nil,
      or_false] at hr
    rcases hr with rfl | rfl | rfl | rfl
    · exact ⟨(rendering_dotted h1 h2).ne_nil, (rendering_dotted h1 h2).word⟩
    · exact ⟨(rendering_dashed h1 h2).ne_nil, (rendering_dashed h1 h2).word⟩
    · exact ⟨(rendering_titleCase cm h1 h2).ne_nil, (rendering_titleCase cm h1 h2).word⟩
    · exact ⟨(rendering_camelCase cm h1 h2).ne_nil, (rendering_camelCase cm h1 h2).word⟩
  exact not_infix_assemble hrend.1 hrend.2 blocks
    (fun b hb => ⟨hfree r hr b.1 (hblocks b hb).1, (hblocks b hb).2⟩) hsep u0 hu0

/-- C5, witness: scenario 1 and the text `<corp.gadget> CorpGadget, corp-gadget;corpGadget`. -/
theorem new_text_is_fixed_witness :
    constructor sampleCase scenarioOptions = Except.ok scenarioJob ∧
    (∀ r ∈ oldRenderings sampleCase scenarioJob,
      ∀ n ∈ newRenderings sampleCase scenarioJob, ¬ r <:+: n) ∧
    assemble "<".toList
        [("corp.gadget".toList, "> ".toList), ("CorpGadget".toList, ", ".toList),
         ("corp-gadget".toList, ";".toList), ("corpGadget".toList, [])]
      = "<corp.gadget> CorpGadget, corp-gadget;corpGadget".toList ∧
    ∃ patterns, generatePatterns sampleCase scenarioJob = Except.ok patterns ∧
      applyPatterns patterns "<corp.gadget> CorpGadget, corp-gadget;corpGadget".toList
        = "<corp.gadget> CorpGadget, corp-gadget;corpGadget".toList := by
  have hfree : ∀ r ∈ oldRenderings sampleCase scenarioJob,
      ∀ n ∈ newRenderings sampleCase scenarioJob,
      ¬ r <:+: n := by decide
  refine ⟨rfl, hfree, rfl, ?_⟩
  exact new_text_is_fixed sampleCase scenarioOptions scenarioJob rfl hfree "<".toList
    [("corp.gadget".toList, "> ".toList), ("CorpGadget".toList, ", ".toList),
     ("corp-gadget".toList, ";".toList), ("corpGadget".toList, [])]
    (by unfold IsSeparators; decide) (by unfold IsSeparators; decide) (by decide)

/-- C5, counterexample: with old identifier `ab.cd` and new identifier `xab.cde` the new
dotted rendering `xab.cde` is turned into `xxab.cdee`; and with old `ab.cda` and new `ab.cd`,
where no old rendering occurs in a new one, the text of two new dotted renderings without a
separator between them, `ab.cdab.cd`, is turned into `ab.cdb.cd`. -/
theorem new_text_counterexample :
    (constructor sampleCase overlapOptions = Except.ok overlapJob ∧
      "xab.cde".toList ∈ newRenderings sampleCase overlapJob ∧
      (generatePatterns sampleCase overlapJob).map (fun ps => applyPatterns ps "xab.cde".toList)
        = Except.ok "xxab.cdee".toList ∧
      "xxab.cdee".toList ≠ "xab.cde".toList) ∧
    (constructor sampleCase adjacentOptions = Except.ok adjacentJob ∧
      "ab.cd".toList ∈ newRenderings sampleCase adjacentJob ∧
      (∀ r ∈ oldRenderings sampleCase adjacentJob,
        ∀ n ∈ newRenderings sampleCase adjacentJob, ¬ r <:+: n) ∧
      (generatePatterns sampleCase adjacentJob).map (fun ps => applyPatterns ps "ab.cdab.cd".toList)
        = Except.ok "ab.cdb.cd".toList ∧
      "ab.cdb.cd".toList ≠ "ab.cdab.cd".toList) := by
  refine ⟨⟨rfl, by decide, rfl, by decide⟩, rfl, by decide, by decide, rfl, by decide⟩

/-- C6: for every job with `dryRun` set, every file system and every state of it, `start`
makes no `writeFile` call and no `rename` call and ends in the state it started in; the same
holds for `rewrite` on every path and pattern list, and for the run of `cli.js` on options
with `dryRun` set. -/
theorem dryRun_changes_nothing (cm : CaseMapping) {σ : Type} (fs : FileSystem σ) (job : Job)
    (hdry : job.dryRun = true) (st : σ) :
    ((start cm fs job st).state = st ∧
      ∀ op ∈ (start cm fs job st).ops, op.isMutation = false) ∧
    (∀ (path : List Char) (patterns : List Pattern),
      (rewrite fs job path patterns st).state = st ∧
      ∀ op ∈ (rewrite fs job path patterns st).ops, op.isMutation = false) ∧
    ∀ o : Options, o.dryRun = true →
      (cli cm fs o st).state = st ∧ ∀ op ∈ (cli cm fs o st).ops, op.isMutation = false := by
  refine ⟨start_dryRun fs job hdry st, ?_, ?_⟩
  · intro path patterns
    obtain ⟨hs, ho⟩ := rewrite_dryRun fs job hdry path patterns st
    refine ⟨hs, ?_⟩
    intro op hop
    rw [ho, List.mem_singleton] at hop
    subst hop
    rfl
  · intro o ho
    unfold cli
    cases hc : constructor cm o with
    | error e => exact ⟨rfl, by simp⟩
    | ok job2 =>
      have hd : job2.dryRun = true := by
        rw [(constructor_ok hc).2.2.2.2.2.2.2.2, ho]
      exact start_dryRun fs job2 hd st

/-- C6, witness: scenario 2, the dry run over the tree of scenario 1 in the in-memory file
system: the run succeeds, reads the two files and leaves the tree as it was. -/
theorem dryRun_changes_nothing_witness :
    dryRunJob.dryRun = true ∧
    (start sampleCase memFS dryRunJob scenarioFiles).result = Except.ok () ∧
    (start sampleCase memFS dryRunJob scenarioFiles).state = scenarioFiles ∧
    (start sampleCase memFS dryRunJob scenarioFiles).ops.length = 4 ∧
    ∀ op ∈ (start sampleCase memFS dryRunJob scenarioFiles).ops, op.isMutation = false := by
  have h := (dryRun_changes_nothing sampleCase memFS dryRunJob rfl scenarioFiles).1
  exact ⟨rfl, rfl, h.1, rfl, h.2⟩

/-- C7, the code at a path that holds the old identifier twice: `newDir` is the path with
the first occurrence of the old identifier replaced, so the parent directory changes and the
last segment stays `acme.widget`. -/
theorem newDir_replaces_first_occurrence :
    (constructor sampleCase backupOptions).map (fun job => (job.oldDir, job.newFull, job.newDir))
      = Except.ok ("/work/acme.widget-backup/acme.widget".toList, "corp.gadget".toList,
          "/work/corp.gadget-backup/acme.widget".toList) ∧
    lastSegment "/work/corp.gadget-backup/acme.widget".toList = "acme.widget".toList := by
  exact ⟨rfl, rfl⟩

/-- C8: outside a dry run, when the file at `join(oldDir, p)` is read with content `c`,
`rewrite` first writes the transformed content to that path. If the write is rejected,
`rewrite` fails with that error in the state the write left, and no rename is made. If the
write is accepted and the transformed path equals `p`, `rewrite` succeeds in the state the
write left, and no rename is made. If the write is accepted and the transformed path
differs from `p`, `rewrite` then renames the file to `join(oldDir, apply(p))` in the state
the write left, and ends with the result and the state of that rename. In each case the
calls are given in full and in order: the read, the write, and the rename last if there is
one. -/
theorem rewrite_write_then_rename {σ : Type} (fs : FileSystem σ) (job : Job)
    (hwet : job.dryRun = false) (p c : List Char) (patterns : List Pattern) (st : σ)
    (hread : fs.readFile (fullPath job p) st = Except.ok c) :
    (∀ (code : Nat) (st1 : σ),
      fs.writeFile (fullPath job p) (applyPatterns patterns c) st = (Except.error code, st1) →
      (rewrite fs job p patterns st).result = Except.error (RenameError.io code) ∧
      (rewrite fs job p patterns st).state = st1 ∧
      (rewrite fs job p patterns st).ops
        = [Op.readFile (fullPath job p),
           Op.writeFile (fullPath job p) (applyPatterns patterns c)]) ∧
    (∀ st1 : σ,
      fs.writeFile (fullPath job p) (applyPatterns patterns c) st = (Except.ok (), st1) →
      applyPatterns patterns p = p →
      (rewrite fs job p patterns st).result = Except.ok () ∧
      (rewrite fs job p patterns st).state = st1 ∧
      (rewrite fs job p patterns st).ops
        = [Op.readFile (fullPath job p),
           Op.writeFile (fullPath job p) (applyPatterns patterns c)]) ∧
    (∀ st1 : σ,
      fs.writeFile (fullPath job p) (applyPatterns patterns c) st = (Except.ok (), st1) →
      applyPatterns patterns p ≠ p →
      (rewrite fs job p patterns st).result
        = liftIO (fs.rename (fullPath job p) (fullPath job (applyPatterns patterns p)) st1).1 ∧
      (rewrite fs job p patterns st).state
        = (fs.rename (fullPath job p) (fullPath job (applyPatterns patterns p)) st1).2 ∧
      (rewrite fs job p patterns st).ops
        = [Op.readFile (fullPath job p),
           Op.writeFile (fullPath job p) (applyPatterns patterns c),
           Op.rename (fullPath job p) (fullPath job (applyPatterns patterns p))]) := by
  refine ⟨?_, ?_, ?_⟩
  · intro code st1 hwrite
    exact rewrite_write_rejected fs job hwet p c patterns st st1 code hread hwrite
  · intro st1 hwrite hpath
    exact rewrite_path_kept fs job hwet p c patterns st st1 hread hwrite hpath
  · intro st1 hwrite hpath
    exact rewrite_path_changed fs job hwet p c patterns st st1 hread hwrite hpath

/-- C8, witness: the controller file of scenario 1 in the in-memory file system: the new
content is written under the old name, then the file is renamed to `CorpGadgetCtrl.js`;
the run of `rewrite` succeeds and leaves the renamed file with the new content. -/
theorem rewrite_write_then_rename_witness :
    scenarioJob.dryRun = false ∧
    memFS.readFile (fullPath scenarioJob "AcmeWidgetCtrl.js".toList) scenarioFiles
      = Except.ok scenarioContent ∧
    applyPatterns (expectedPatterns sampleCase scenarioJob) "AcmeWidgetCtrl.js".toList
      ≠ "AcmeWidgetCtrl.js".toList ∧
    (rewrite memFS scenarioJob "AcmeWidgetCtrl.js".toList
        (expectedPatterns sampleCase scenarioJob) scenarioFiles).result = Except.ok () ∧
    (rewrite memFS scenarioJob "AcmeWidgetCtrl.js".toList
        (expectedPatterns sampleCase scenarioJob) scenarioFiles).state
      = [("/apps/acme.widget/CorpGadgetCtrl.js".toList, scenarioExpected),
         ("/apps/acme.widget/app.json".toList, "acme.widget".toList)] ∧
    (rewrite memFS scenarioJob "AcmeWidgetCtrl.js".toList
        (expectedPatterns sampleCase scenarioJob) scenarioFiles).ops
      = [Op.readFile "/apps/acme.widget/AcmeWidgetCtrl.js".toList,
         Op.writeFile "/apps/acme.widget/AcmeWidgetCtrl.js".toList scenarioExpected,
         Op.rename "/apps/acme.widget/AcmeWidgetCtrl.js".toList
           "/apps/acme.widget/CorpGadgetCtrl.js".toList] := by
  have hpath : applyPatterns (expectedPatterns sampleCase scenarioJob)
      "AcmeWidgetCtrl.js".toList ≠ "AcmeWidgetCtrl.js".toList := by decide
  obtain ⟨h1, h2, h3⟩ :=
    (rewrite_write_then_rename memFS scenarioJob rfl "AcmeWidgetCtrl.js".toList
      scenarioContent (expectedPatterns sampleCase scenarioJob) scenarioFiles rfl).2.2
      _ rfl hpath
  refine ⟨rfl, rfl, hpath, ?_, ?_, ?_⟩
  · rw [h1]; rfl
  · rw [h2]; rfl
  · rw [h3]; rfl

/-- C9: for every job the constructor accepts, `generatePatterns` returns four patterns,
and each of them, applied alone to a text `u0 + r + u1 + r + ... + r + un` in which `r` is
the old rendering of that pattern and the `ui` hold only characters outside `[A-Za-z0-9.-]`,
gives `u0 + r' + u1 + r' + ... + r' + un` with `r'` the same rendering of the new
identifier: every occurrence is replaced, whatever their number `n`. -/
theorem every_occurrence_replaced (cm : CaseMapping) (o : Options) (job : Job)
    (h : constructor cm o = Except.ok job) :
    ∃ p1 p2 p3 p4, generatePatterns cm job = Except.ok [p1, p2, p3, p4] ∧
      ∀ (u0 : List Char) (us : List (List Char)),
        IsSeparators u0 → (∀ u ∈ us, IsSeparators u) →
        replace (interleave (dotted job.oldTenantAlias job.oldAppName) u0 us)
            p1.regex p1.replacement
          = interleave (dotted job.newTenantAlias job.newAppName) u0 us ∧
        replace (interleave (dashed job.oldTenantAlias job.oldAppName) u0 us)
            p2.regex p2.replacement
          = interleave (dashed job.newTenantAlias job.newAppName) u0 us ∧
        replace (interleave (titleCase cm job.oldTenantAlias job.oldAppName) u0 us)
            p3.regex p3.replacement
          = interleave (titleCase cm job.newTenantAlias job.newAppName) u0 us ∧
        replace (interleave (camelCase cm job.oldTenantAlias job.oldAppName) u0 us)
            p4.regex p4.replacement
          = interleave (camelCase cm job.newTenantAlias job.newAppName) u0 us := by
  have hv := constructor_valid cm h
  obtain ⟨h1, h2, h3, h4⟩ := hv
  refine ⟨_, _, _, _, generatePatterns_valid cm ⟨h1, h2, h3, h4⟩, ?_⟩
  intro u0 us hu0 hus
  have od := rendering_dotted h1 h2
  have os := rendering_dashed h1 h2
  have ot := rendering_titleCase cm h1 h2
  have oc := rendering_camelCase cm h1 h2
  refine ⟨?_, ?_, ?_, ?_⟩
  · rw [replace_literalPattern]
    exact replaceFrom_interleave od.ne_nil od.word (rendering_dotted h3 h4).no_dollar
      us hus u0 [] hu0
  · rw [replace_literalPattern]
    exact replaceFrom_interleave os.ne_nil os.word (rendering_dashed h3 h4).no_dollar
      us hus u0 [] hu0
  · rw [replace_literalPattern]
    exact replaceFrom_interleave ot.ne_nil ot.word (rendering_titleCase cm h3 h4).no_dollar
      us hus u0 [] hu0
  · rw [replace_literalPattern]
    exact replaceFrom_interleave oc.ne_nil oc.word (rendering_camelCase cm h3 h4).no_dollar
      us hus u0 [] hu0

/-- C9, witness: scenario 1 and a text with three occurrences, two of them adjacent:
`(acme.widget) acme.widgetacme.widget!`. -/
theorem every_occurrence_replaced_witness :
    constructor sampleCase scenarioOptions = Except.ok scenarioJob ∧
    interleave "acme.widget".toList "(".toList [") ".toList, [], "!".toList]
      = "(acme.widget) acme.widgetacme.widget!".toList ∧
    ∃ p1 p2 p3 p4, generatePatterns sampleCase scenarioJob = Except.ok [p1, p2, p3, p4] ∧
      replace "(acme.widget) acme.widgetacme.widget!".toList p1.regex p1.replacement
        = "(corp.gadget) corp.gadgetcorp.gadget!".toList := by
  obtain ⟨p1, p2, p3, p4, hps, hall⟩ :=
    every_occurrence_replaced sampleCase scenarioOptions scenarioJob rfl
  refine ⟨rfl, rfl, p1, p2, p3, p4, hps, ?_⟩
  exact (hall "(".toList [") ".toList, [], "!".toList]
    (by unfold IsSeparators; decide) (by unfold IsSeparators; decide)).1

/-- C10: for every case mapping of the engine, when the last path segment is an app ID and
the lower-cased new identifier is one, the constructor succeeds, and it builds the same job
(so the same `newFull`, parts, `newDir` and patterns) as from the options with the new
identifier already in lower case. For any options whose lower-cased new identifier is an
app ID the two constructions agree, whatever the path. `CORP.GADGET` gives the job of
`corp.gadget`. -/
theorem constructor_lowercases (cm : CaseMapping) (o : Options)
    (hold : IsAppId (lastSegment o.path)) (hnew : IsAppId (cm.toLowerCase o.appId)) :
    (∃ job, constructor cm o = Except.ok job ∧
      constructor cm { o with appId := cm.toLowerCase o.appId } = Except.ok job ∧
      job.newFull = cm.toLowerCase o.appId) ∧
    (∀ o2 : Options, IsAppId (cm.toLowerCase o2.appId) →
      constructor cm { o2 with appId := cm.toLowerCase o2.appId } = constructor cm o2) ∧
    constructor cm shoutedOptions = constructor cm scenarioOptions := by
  have hagree : ∀ o2 : Options, IsAppId (cm.toLowerCase o2.appId) →
      constructor cm { o2 with appId := cm.toLowerCase o2.appId } = constructor cm o2 := by
    intro o2 h2
    unfold constructor
    simp only [toLowerCase_appId cm h2]
  refine ⟨?_, hagree, ?_⟩
  · cases hc : constructor cm o with
    | error e =>
      have := (constructor_error_iff o).1 ⟨e, hc⟩
      rw [matchAppId_eq_none_iff, matchAppId_eq_none_iff] at this
      rcases this with h | h
      · exact absurd hold h
      · exact absurd hnew h
    | ok job =>
      exact ⟨job, rfl, by rw [hagree o hnew, hc], (constructor_ok hc).2.2.2.1⟩
  · have e1 : cm.toLowerCase shoutedOptions.appId = "corp.gadget".toList := by
      rw [cm.lower_ascii _ (by decide)]
      rfl
    have e2 : cm.toLowerCase scenarioOptions.appId = "corp.gadget".toList := by
      rw [cm.lower_ascii _ (by decide)]
      rfl
    unfold constructor
    simp only [e1, e2]
    rfl

/-- C10, witness: with a case mapping that knows the Kelvin sign, the new identifier
`K` + `orp.gadget` (Kelvin sign first) has the lower-case form `korp.gadget`, and the
constructor builds from it the job it builds from `korp.gadget`. -/
theorem constructor_lowercases_witness :
    IsAppId (lastSegment kelvinOptions.path) ∧
    IsAppId (sampleCase.toLowerCase kelvinOptions.appId) ∧
    sampleCase.toLowerCase kelvinOptions.appId = "korp.gadget".toList ∧
    ∃ job, constructor sampleCase kelvinOptions = Except.ok job ∧
      constructor sampleCase { kelvinOptions with appId := "korp.gadget".toList }
        = Except.ok job ∧
      job.newFull = "korp.gadget".toList := by
  have hold : IsAppId (lastSegment kelvinOptions.path) :=
    ⟨"acme".toList, "widget".toList, rfl, rfl, rfl⟩
  have hnew : IsAppId (sampleCase.toLowerCase kelvinOptions.appId) :=
    ⟨"korp".toList, "gadget".toList, rfl, rfl, rfl⟩
  exact ⟨hold, hnew, rfl, (constructor_lowercases sampleCase kelvinOptions hold hnew).1⟩

/-- C11: for all parts `a` and `b` of the form `[a-z][a-z0-9]+`, the identifier pattern
matches `a.b` with the groups `a` and `b`, and the constructor given a path that ends in
`a.b` and a new identifier whose lower-case form is `c.d` succeeds with the parts `a`, `b`,
`c`, `d`. For every job the constructor accepts, the old parts joined by a dot are `oldFull`,
the new parts joined by a dot are `newFull`, and each of the four parts has at least two
characters. -/
theorem parse_roundtrip (cm : CaseMapping) (a b : List Char) (ha : isIdPart a = true)
    (hb : isIdPart b = true) :
    matchAppId (a ++ ['.'] ++ b) = some (a, b) ∧
    (∀ (o : Options) (c d : List Char), isIdPart c = true → isIdPart d = true →
      lastSegment o.path = a ++ ['.'] ++ b → cm.toLowerCase o.appId = c ++ ['.'] ++ d →
      ∃ job, constructor cm o = Except.ok job ∧
        job.oldTenantAlias = a ∧ job.oldAppName = b ∧
        job.newTenantAlias = c ∧ job.newAppName = d) ∧
    ∀ (o : Options) (job : Job), constructor cm o = Except.ok job →
      job.oldTenantAlias ++ ['.'] ++ job.oldAppName = job.oldFull ∧
      job.newTenantAlias ++ ['.'] ++ job.newAppName = job.newFull ∧
      2 ≤ job.oldTenantAlias.length ∧ 2 ≤ job.oldAppName.length ∧
      2 ≤ job.newTenantAlias.length ∧ 2 ≤ job.newAppName.length := by
  have hmatch : ∀ x y : List Char, isIdPart x = true → isIdPart y = true →
      matchAppId (x ++ ['.'] ++ y) = some (x, y) := by
    intro x y hx hy
    have := matchAppId_dotted hx hy
    simpa using this
  refine ⟨hmatch a b ha hb, ?_, ?_⟩
  · intro o c d hc hd hold hnew
    have h1 : matchAppId ((split '/' (normalize o.path)).getLastD []) = some (a, b) := by
      have := hmatch a b ha hb
      rw [← hold] at this
      exact this
    have h2 : matchAppId (cm.toLowerCase o.appId) = some (c, d) := by
      rw [hnew]
      exact hmatch c d hc hd
    cases hcon : constructor cm o with
    | error e =>
      have := (constructor_error_iff o).1 ⟨e, hcon⟩
      unfold lastSegment at this
      rw [h1, h2] at this
      simp at this
    | ok job =>
      obtain ⟨_, e1, m1, e2, m2, _⟩ := constructor_ok hcon
      rw [e1, h1] at m1
      rw [e2, h2] at m2
      simp only [Option.some.injEq, Prod.mk.injEq] at m1 m2
      exact ⟨job, rfl, m1.1.symm, m1.2.symm, m2.1.symm, m2.2.symm⟩
  · intro o job hjob
    obtain ⟨_, _, hold, _, hnew, _⟩ := constructor_ok hjob
    obtain ⟨e1, p1, p2⟩ := matchAppId_some hold
    obtain ⟨e2, p3, p4⟩ := matchAppId_some hnew
    refine ⟨?_, ?_, isIdPart_length p1, isIdPart_length p2, isIdPart_length p3,
      isIdPart_length p4⟩
    · rw [e1]; simp
    · rw [e2]; simp

/-- C11, witness: `acme.widget` is parsed into `acme` and `widget`, and the options of
scenario 1 give a job with the parts `acme`, `widget`, `corp`, `gadget`. -/
theorem parse_roundtrip_witness :
    isIdPart "acme".toList = true ∧ isIdPart "widget".toList = true ∧
    matchAppId "acme.widget".toList = some ("acme".toList, "widget".toList) ∧
    (∃ job, constructor sampleCase scenarioOptions = Except.ok job ∧
      job.oldTenantAlias = "acme".toList ∧ job.oldAppName = "widget".toList ∧
      job.newTenantAlias = "corp".toList ∧ job.newAppName = "gadget".toList) ∧
    scenarioJob.oldTenantAlias ++ ['.'] ++ scenarioJob.oldAppName = scenarioJob.oldFull ∧
    scenarioJob.newTenantAlias ++ ['.'] ++ scenarioJob.newAppName = scenarioJob.newFull := by
  have h := parse_roundtrip sampleCase "acme".toList "widget".toList rfl rfl
  have h2 := h.2.1 scenarioOptions "corp".toList "gadget".toList rfl rfl rfl rfl
  have h3 := h.2.2 scenarioOptions scenarioJob rfl
  exact ⟨rfl, rfl, h.1, h2, h3.1, h3.2.1⟩

/-- C12: for every job, every file system and every state in which the check for `app.json`
under the source directory is rejected, `start` fails with that rejection, makes no other
call (no pattern is built, nothing is listed, read, written or renamed) and leaves the state
as it was. -/
theorem start_without_manifest (cm : CaseMapping) {σ : Type} (fs : FileSystem σ) (job : Job)
    (st : σ)
    (code : Nat)
    (hmissing : fs.access (normalize (join job.oldDir manifestName)) st = Except.error code) :
    (start cm fs job st).result = Except.error (RenameError.io code) ∧
    (start cm fs job st).state = st ∧
    (start cm fs job st).ops = [Op.access (normalize (join job.oldDir manifestName))] := by
  unfold start
  simp only [hmissing]
  exact ⟨trivial, trivial, trivial⟩

/-- C12, witness: scenario 3, the tree without `app.json` in the in-memory file system. -/
theorem start_without_manifest_witness :
    memFS.access (normalize (join scenarioJob.oldDir manifestName)) noManifestFiles
      = Except.error 2 ∧
    (start sampleCase memFS scenarioJob noManifestFiles).result
      = Except.error (RenameError.io 2) ∧
    (start sampleCase memFS scenarioJob noManifestFiles).state = noManifestFiles ∧
    (start sampleCase memFS scenarioJob noManifestFiles).ops
      = [Op.access "/apps/acme.widget/app.json".toList] := by
  have h := start_without_manifest sampleCase memFS scenarioJob noManifestFiles 2 rfl
  exact ⟨rfl, h.1, h.2.1, h.2.2⟩

/-- C13: outside a dry run, for a job the constructor accepts, once `app.json` is found and
the listing `paths` is there. The files are rewritten one at a time in listing order, each
from the state the file before it left. If the files before `pk` are rewritten with success
and the rewrite of `pk` fails, `start` fails with that error; its calls are the check, the
listing, the calls of the rewrites before `pk` in order and the calls of the failed rewrite,
nothing more (no call for a later file, no rename of the directory); and its state is the
one the failed rewrite leaves, with the earlier rewrites in place. If all rewrites succeed,
the rename of the directory is the one call after them, made in the state they leave. A
rewrite fails exactly when its read, its write or its rename is rejected, with that error,
after the calls made so far and in the state the rejected call left; otherwise it
succeeds. -/
theorem first_failure_stops_run (cm : CaseMapping) {σ : Type} (fs : FileSystem σ)
    (o : Options) (job : Job) (st : σ) (paths : List (List Char))
    (h : constructor cm o = Except.ok job) (hwet : job.dryRun = false)
    (hacc : fs.access (normalize (join job.oldDir manifestName)) st = Except.ok ())
    (hglob : fs.glob globPattern job.oldDir st = Except.ok paths) :
    ∃ patterns, generatePatterns cm job = Except.ok patterns ∧
      (∀ (pre : List (List Char)) (pk : List Char) (post : List (List Char)) (e : RenameError),
        paths = pre ++ pk :: post →
        allSucceed fs job patterns pre st →
        (rewrite fs job pk patterns (stateAfter fs job patterns pre st)).result
          = Except.error e →
        (start cm fs job st).result = Except.error e ∧
        (start cm fs job st).state
          = (rewrite fs job pk patterns (stateAfter fs job patterns pre st)).state ∧
        (start cm fs job st).ops
          = [Op.access (normalize (join job.oldDir manifestName)),
             Op.glob globPattern job.oldDir]
            ++ opsOf fs job patterns pre st
            ++ (rewrite fs job pk patterns (stateAfter fs job patterns pre st)).ops) ∧
      (allSucceed fs job patterns paths st →
        (start cm fs job st).result
          = liftIO (fs.rename job.oldDir job.newDir (stateAfter fs job patterns paths st)).1 ∧
        (start cm fs job st).state
          = (fs.rename job.oldDir job.newDir (stateAfter fs job patterns paths st)).2 ∧
        (start cm fs job st).ops
          = [Op.access (normalize (join job.oldDir manifestName)),
             Op.glob globPattern job.oldDir]
            ++ opsOf fs job patterns paths st
            ++ [Op.rename job.oldDir job.newDir]) ∧
      (∀ (p : List Char) (s : σ) (code : Nat),
        fs.readFile (fullPath job p) s = Except.error code →
        (rewrite fs job p patterns s).result = Except.error (RenameError.io code) ∧
        (rewrite fs job p patterns s).state = s ∧
        (rewrite fs job p patterns s).ops = [Op.readFile (fullPath job p)]) ∧
      (∀ (p c : List Char) (s s1 : σ) (code : Nat),
        fs.readFile (fullPath job p) s = Except.ok c →
        fs.writeFile (fullPath job p) (applyPatterns patterns c) s = (Except.error code, s1) →
        (rewrite fs job p patterns s).result = Except.error (RenameError.io code) ∧
        (rewrite fs job p patterns s).state = s1 ∧
        (rewrite fs job p patterns s).ops
          = [Op.readFile (fullPath job p),
             Op.writeFile (fullPath job p) (applyPatterns patterns c)]) ∧
      (∀ (p c : List Char) (s s1 s2 : σ) (code : Nat),
        fs.readFile (fullPath job p) s = Except.ok c →
        fs.writeFile (fullPath job p) (applyPatterns patterns c) s = (Except.ok (), s1) →
        applyPatterns patterns p ≠ p →
        fs.rename (fullPath job p) (fullPath job (applyPatterns patterns p)) s1
          = (Except.error code, s2) →
        (rewrite fs job p patterns s).result = Except.error (RenameError.io code) ∧
        (rewrite fs job p patterns s).state = s2 ∧
        (rewrite fs job p patterns s).ops
          = [Op.readFile (fullPath job p),
             Op.writeFile (fullPath job p) (applyPatterns patterns c),
             Op.rename (fullPath job p) (fullPath job (applyPatterns patterns p))]) ∧
      (∀ (p c : List Char) (s s1 : σ),
        fs.readFile (fullPath job p) s = Except.ok c →
        fs.writeFile (fullPath job p) (applyPatterns patterns c) s = (Except.ok (), s1) →
        applyPatterns patterns p = p →
        (rewrite fs job p patterns s).result = Except.ok () ∧
        (rewrite fs job p patterns s).state = s1) ∧
      (∀ (p c : List Char) (s s1 s2 : σ),
        fs.readFile (fullPath job p) s = Except.ok c →
        fs.writeFile (fullPath job p) (applyPatterns patterns c) s = (Except.ok (), s1) →
        applyPatterns patterns p ≠ p →
        fs.rename (fullPath job p) (fullPath job (applyPatterns patterns p)) s1
          = (Except.ok (), s2) →
        (rewrite fs job p patterns s).result = Except.ok () ∧
        (rewrite fs job p patterns s).state = s2) := by
  have hpat := generatePatterns_valid cm (constructor_valid cm h)
  have hstart := start_after_listing fs job st (expectedPatterns cm job) paths hacc hpat hglob
  refine ⟨expectedPatterns cm job, hpat, ?_, ?_, ?_, ?_, ?_, ?_, ?_⟩
  · intro pre pk post e hsplit hpre hpk
    obtain ⟨a1, a2, a3⟩ :=
      rewriteAll_first_failure fs job (expectedPatterns cm job) pre pk post st e hpre hpk
    rw [← hsplit] at a1 a2 a3
    rw [hstart]
    simp only [a1, a2, a3]
    simp
  · intro hall
    obtain ⟨a1, a2, a3⟩ :=
      rewriteAll_of_allSucceed fs job (expectedPatterns cm job) paths st hall
    rw [hstart]
    simp only [a1, a2, a3, hwet]
    simp
  · intro p s code hread
    exact rewrite_read_rejected fs job p _ s code hread
  · intro p c s s1 code hread hwrite
    exact rewrite_write_rejected fs job hwet p c _ s s1 code hread hwrite
  · intro p c s s1 s2 code hread hwrite hpath hrename
    have := rewrite_path_changed fs job hwet p c _ s s1 hread hwrite hpath
    rw [hrename] at this
    exact this
  · intro p c s s1 hread hwrite hpath
    have := rewrite_path_kept fs job hwet p c _ s s1 hread hwrite hpath
    exact ⟨this.1, this.2.1⟩
  · intro p c s s1 s2 hread hwrite hpath hrename
    have := rewrite_path_changed fs job hwet p c _ s s1 hread hwrite hpath
    rw [hrename] at this
    exact ⟨this.1, this.2.1⟩

/-- C13, witness: the tree of scenario 1 in a file system whose `app.json` cannot be
written. The glob lists the controller file first: it is rewritten and renamed. Then the
write of `app.json` is rejected, and the run ends there with that error: seven calls, no
rename of the directory, the controller file keeps its new content and name, and
`app.json` its old content. -/
theorem first_failure_stops_run_witness :
    constructor sampleCase scenarioOptions = Except.ok scenarioJob ∧
    (lockedFS "/apps/acme.widget/app.json".toList).glob globPattern scenarioJob.oldDir
        scenarioFiles = Except.ok ["AcmeWidgetCtrl.js".toList, "app.json".toList] ∧
    (start sampleCase (lockedFS "/apps/acme.widget/app.json".toList) scenarioJob
        scenarioFiles).result = Except.error (RenameError.io 13) ∧
    (start sampleCase (lockedFS "/apps/acme.widget/app.json".toList) scenarioJob
        scenarioFiles).state
      = [("/apps/acme.widget/CorpGadgetCtrl.js".toList, scenarioExpected),
         ("/apps/acme.widget/app.json".toList, "acme.widget".toList)] ∧
    (start sampleCase (lockedFS "/apps/acme.widget/app.json".toList) scenarioJob
        scenarioFiles).ops
      = [Op.access "/apps/acme.widget/app.json".toList,
         Op.glob globPattern "/apps/acme.widget".toList,
         Op.readFile "/apps/acme.widget/AcmeWidgetCtrl.js".toList,
         Op.writeFile "/apps/acme.widget/AcmeWidgetCtrl.js".toList scenarioExpected,
         Op.rename "/apps/acme.widget/AcmeWidgetCtrl.js".toList
           "/apps/acme.widget/CorpGadgetCtrl.js".toList,
         Op.readFile "/apps/acme.widget/app.json".toList,
         Op.writeFile "/apps/acme.widget/app.json".toList "corp.gadget".toList] := by
  obtain ⟨ps, hps, hfail, _⟩ :=
    first_failure_stops_run sampleCase (lockedFS "/apps/acme.widget/app.json".toList)
      scenarioOptions scenarioJob scenarioFiles
      ["AcmeWidgetCtrl.js".toList, "app.json".toList] rfl rfl rfl rfl
  have hps2 : ps = expectedPatterns sampleCase scenarioJob :=
    Except.ok.inj (hps.symm.trans (rfl : generatePatterns sampleCase scenarioJob = _))
  subst hps2
  obtain ⟨h1, h2, h3⟩ := hfail ["AcmeWidgetCtrl.js".toList] "app.json".toList []
    (RenameError.io 13) rfl ⟨rfl, trivial⟩ rfl
  refine ⟨rfl, rfl, h1, ?_, ?_⟩
  · rw [h2]; rfl
  · rw [h3]; rfl

/-- C14: for every case mapping of the engine, `title` maps the empty string to the empty
string and any other string to the upper-case form of its first character followed by the
rest as it is; when the first character is ASCII, that form is its ASCII upper case. For
every valid identifier part `p`, `title p` is as long as `p`, its first character differs
from that of `p`, the characters after the first are those of `p`, and the lower-case form
of `title p` is `p`. -/
theorem title_first_only (cm : CaseMapping) (p : List Char) (hp : isIdPart p = true) :
    (title cm [] = [] ∧
      (∀ (c : Char) (rest : List Char), title cm (c :: rest) = cm.toUpperCase [c] ++ rest) ∧
      ∀ (c : Char) (rest : List Char), c.toNat < 128 →
        title cm (c :: rest) = c.toUpper :: rest) ∧
    (title cm p).length = p.length ∧
    (title cm p).head? ≠ p.head? ∧
    (title cm p).tail = p.tail ∧
    cm.toLowerCase (title cm p) = p := by
  obtain ⟨c, rest, hpc, ht, hc, hrest⟩ := title_shape cm hp
  refine ⟨⟨?_, ?_, ?_⟩, ?_, ?_, ?_, ?_⟩
  · unfold title
    rw [List.take_nil, List.drop_nil, cm.upper_ascii [] (by simp)]
    rfl
  · intro c rest
    unfold title
    simp
  · intro c rest hascii
    have hup : cm.toUpperCase [c] = [c.toUpper] := by
      rw [cm.upper_ascii [c] (by simpa using hascii)]
      rfl
    unfold title
    simp [hup]
  · rw [ht, hpc]; simp
  · rw [ht, hpc]
    simp only [List.head?_cons, ne_eq, Option.some.injEq]
    exact toUpper_ne_of_lower hc
  · rw [ht, hpc]; simp
  · rw [ht, hpc]
    have hascii : ∀ x ∈ c.toUpper :: rest, x.toNat < 128 := by
      intro x hx
      rcases List.mem_cons.1 hx with h | h
      · rw [h]
        exact toUpper_ascii_of_lower c hc
      · exact partChar_ascii x (hrest x h)
    rw [cm.lower_ascii _ hascii, List.map_cons, (upperCharFacts c hc).2.2.2.2.2.2.2]
    have hrest2 : rest.map Char.toLower = rest := by
      rw [← cm.lower_ascii rest (fun x hx => partChar_ascii x (hrest x hx))]
      exact toLowerCase_part cm hrest
    rw [hrest2]

/-- C14, witness: `title` of `widget` is `Widget`; and with a case mapping that knows the
sharp s and the letter e with acute, `title` of sharp s + `x` is `SSx` and `title` of
e-acute + `a` is E-acute + `a`. -/
theorem title_first_only_witness :
    isIdPart "widget".toList = true ∧ title sampleCase "widget".toList = "Widget".toList ∧
    (title sampleCase "widget".toList).length = 6 ∧
    sampleCase.toLowerCase "Widget".toList = "widget".toList ∧
    title sampleCase [sharpS, 'x'] = ['S', 'S', 'x'] ∧
    title sampleCase [smallEAcute, 'a'] = [capitalEAcute, 'a'] := by
  have h := title_first_only sampleCase "widget".toList rfl
  exact ⟨rfl, rfl, h.2.1, h.2.2.2.2, rfl, rfl⟩

/-- C15: for every job the constructor accepts and every text `t` in which none of the four
old renderings occurs, the four patterns applied in order return `t` as it is; and for such
a `t` as the path, `rewrite` makes no `rename` call, in any file system and state. -/
theorem text_without_occurrence_unchanged (cm : CaseMapping) (o : Options) (job : Job)
    (h : constructor cm o = Except.ok job) (t : List Char)
    (hfree : ∀ r ∈ oldRenderings cm job, ¬ r <:+: t) :
    ∃ patterns, generatePatterns cm job = Except.ok patterns ∧
      applyPatterns patterns t = t ∧
      ∀ (σ : Type) (fs : FileSystem σ) (st : σ),
        ∀ op ∈ (rewrite fs job t patterns st).ops, op.isRename = false := by
  have hv := constructor_valid cm h
  have hsame := applyPatterns_of_no_occurrence cm hv t hfree
  exact ⟨expectedPatterns cm job, generatePatterns_valid cm hv, hsame,
    fun σ fs st => rewrite_no_rename fs job t _ st hsame⟩

/-- C15, witness: scenario 1 and the path `app.json`: the file is read and written, not
renamed. -/
theorem text_without_occurrence_unchanged_witness :
    constructor sampleCase scenarioOptions = Except.ok scenarioJob ∧
    (∀ r ∈ oldRenderings sampleCase scenarioJob, ¬ r <:+: "app.json".toList) ∧
    ∃ patterns, generatePatterns sampleCase scenarioJob = Except.ok patterns ∧
      applyPatterns patterns "app.json".toList = "app.json".toList ∧
      ∀ op ∈ (rewrite memFS scenarioJob "app.json".toList patterns scenarioFiles).ops,
        op.isRename = false := by
  have hfree : ∀ r ∈ oldRenderings sampleCase scenarioJob, ¬ r <:+: "app.json".toList := by
    decide
  obtain ⟨ps, hps, hsame, hops⟩ :=
    text_without_occurrence_unchanged sampleCase scenarioOptions scenarioJob rfl
      "app.json".toList hfree
  exact ⟨rfl, hfree, ps, hps, hsame, hops Files memFS scenarioFiles⟩

/-- C16: for every job the constructor accepts, the four identifier parts and their
capitalised forms hold letters and digits only. `generatePatterns` returns four patterns:
the source of the first is `ot\.oa`, with no syntax character in `ot` and `oa`, and the
sources of the other three hold no syntax character at all. Each matcher matches at the
start of a text exactly when the text starts with the literal old rendering, so the dotted
matcher does not match `ot X oa` for a character `X` other than the dot. No replacement
holds a dollar sign. -/
theorem patterns_are_literal (cm : CaseMapping) (o : Options) (job : Job)
    (h : constructor cm o = Except.ok job) :
    (∀ part ∈ [job.oldTenantAlias, job.oldAppName, job.newTenantAlias, job.newAppName,
        title cm job.oldTenantAlias, title cm job.oldAppName, title cm job.newTenantAlias,
        title cm job.newAppName], ∀ x ∈ part, x.isAlphanum = true) ∧
    ∃ p1 p2 p3 p4, generatePatterns cm job = Except.ok [p1, p2, p3, p4] ∧
      p1.regex.source = job.oldTenantAlias ++ [backslash, '.'] ++ job.oldAppName ∧
      (∀ x ∈ job.oldTenantAlias ++ job.oldAppName, isSyntaxCharacter x = false) ∧
      (∀ p ∈ [p2, p3, p4], ∀ x ∈ p.regex.source, isSyntaxCharacter x = false) ∧
      (∀ s m post : List Char,
        (matchHere p1.regex.atoms s = some (m, post) ↔
          (m = dotted job.oldTenantAlias job.oldAppName ∧
            s = dotted job.oldTenantAlias job.oldAppName ++ post)) ∧
        (matchHere p2.regex.atoms s = some (m, post) ↔
          (m = dashed job.oldTenantAlias job.oldAppName ∧
            s = dashed job.oldTenantAlias job.oldAppName ++ post)) ∧
        (matchHere p3.regex.atoms s = some (m, post) ↔
          (m = titleCase cm job.oldTenantAlias job.oldAppName ∧
            s = titleCase cm job.oldTenantAlias job.oldAppName ++ post)) ∧
        (matchHere p4.regex.atoms s = some (m, post) ↔
          (m = camelCase cm job.oldTenantAlias job.oldAppName ∧
            s = camelCase cm job.oldTenantAlias job.oldAppName ++ post))) ∧
      (∀ (x : Char) (rest : List Char), x ≠ '.' →
        matchHere p1.regex.atoms (job.oldTenantAlias ++ x :: job.oldAppName ++ rest) = none) ∧
      (∀ p ∈ [p1, p2, p3, p4], '$' ∉ p.replacement) := by
  obtain ⟨h1, h2, h3, h4⟩ := constructor_valid cm h
  have q1 := plain_of_isIdPart h1
  have q2 := plain_of_isIdPart h2
  have q3 := plain_of_isIdPart h3
  have q4 := plain_of_isIdPart h4
  have t1 := plain_title cm h1
  have t2 := plain_title cm h2
  have t3 := plain_title cm h3
  have t4 := plain_title cm h4
  constructor
  · intro part hpart
    simp only [List.mem_cons, List.mem_singleton, List.not_mem_nil, or_false] at hpart
    rcases hpart with rfl | rfl | rfl | rfl | rfl | rfl | rfl | rfl
    · exact q1.alphanum
    · exact q2.alphanum
    · exact q3.alphanum
    · exact q4.alphanum
    · exact t1.alphanum
    · exact t2.alphanum
    · exact t3.alphanum
    · exact t4.alphanum
  · refine ⟨_, _, _, _, generatePatterns_valid cm ⟨h1, h2, h3, h4⟩, rfl,
      ?_, ?_, ?_, ?_, ?_⟩
    · exact fun x hx => ((q1.append q2) x hx).1
    · intro p hp
      simp only [List.mem_cons, List.mem_singleton, List.not_mem_nil, or_false] at hp
      rcases hp with rfl | rfl | rfl
      · exact dashed_ordinary h1 h2
      · exact fun x hx => ((t1.append t2) x hx).1
      · exact fun x hx => ((q1.append t2) x hx).1
    · intro s m post
      exact ⟨matchHere_lits_iff _ s m post, matchHere_lits_iff _ s m post,
        matchHere_lits_iff _ s m post, matchHere_lits_iff _ s m post⟩
    · intro x rest hx
      exact dotted_rejects_other_separator _ _ rest x hx
    · intro p hp
      simp only [List.mem_cons, List.mem_singleton, List.not_mem_nil, or_false] at hp
      rcases hp with rfl | rfl | rfl | rfl
      · exact (rendering_dotted h3 h4).no_dollar
      · exact (rendering_dashed h3 h4).no_dollar
      · exact (rendering_titleCase cm h3 h4).no_dollar
      · exact (rendering_camelCase cm h3 h4).no_dollar

/-- C16, witness: scenario 1: the dotted matcher of `acme.widget` matches `acme.widget` and
does not match `acmeXwidget`. -/
theorem patterns_are_literal_witness :
    constructor sampleCase scenarioOptions = Except.ok scenarioJob ∧
    ∃ p1 p2 p3 p4, generatePatterns sampleCase scenarioJob = Except.ok [p1, p2, p3, p4] ∧
      matchHere p1.regex.atoms "acme.widget".toList = some ("acme.widget".toList, []) ∧
      matchHere p1.regex.atoms "acmeXwidget".toList = none ∧
      (∀ p ∈ [p1, p2, p3, p4], '$' ∉ p.replacement) := by
  obtain ⟨_, p1, p2, p3, p4, hps, _, _, _, hmatch, hother, hdollar⟩ :=
    patterns_are_literal sampleCase scenarioOptions scenarioJob rfl
  refine ⟨rfl, p1, p2, p3, p4, hps, ?_, ?_, hdollar⟩
  · exact (hmatch "acme.widget".toList "acme.widget".toList []).1.2 ⟨rfl, rfl⟩
  · have := hother 'X' [] (by decide)
    simpa using this

end MydayRenameApp
